import Mathlib

/-!
# Dial queue of `network/dial/dial_queue.go`

A shallow embedding of the dial queue: a binary min-heap of dial tasks
(Go's `container/heap` driving the slice type `dialQueueImpl`) paired with a
map from peer identity to the pending task of that peer, a buffered
availability channel and a close channel.

Go shares one `*DialTask` object between the heap slice and the map, and
the heap writes the `index` field of the objects it moves.  The embedding
keeps that sharing: a pointer is a natural number, and the objects live in
a store `mem` that both the slice and the map refer to.
-/

set_option autoImplicit false

/-! ## Data model -/

/-- Peer identity (`peer.ID`): an opaque comparable value. -/
abbrev PeerID := Nat

/-- The value behind a `*peer.AddrInfo`: the identity and its address hints.
Callers pass a pointer that is not `nil`. -/
structure AddrInfo where
  ID : PeerID
  Addrs : List Nat
deriving DecidableEq, Inhabited

/-- Modelled from the spec: the struct `DialTask` is declared outside
`dial_queue.go`.  It has the two fields `dial_queue.go` assigns (`addrInfo`,
`priority`, the latter a `uint64` on which no arithmetic is ever done) and
the field `index` that `dial_queue.go` reads, which the spec describes as
the task's current slot in the ordered container. -/
structure DialTask where
  index : Nat
  addrInfo : AddrInfo
  priority : Nat
deriving DecidableEq, Inhabited

/-- Address of a `DialTask` object (`*DialTask`). -/
abbrev Ptr := Nat

/-- Modelled from the spec: the slice type `dialQueueImpl` (`[]*DialTask`) is
declared outside `dial_queue.go`.  A value is the slice `items` of task pointers
together with the store `mem` those pointers refer to. -/
structure dialQueueImpl where
  mem : Ptr → DialTask
  items : List Ptr

/-- The Go map `map[peer.ID]*DialTask` as an association list with at most
one entry per key. -/
abbrev TaskMap := List (PeerID × Ptr)

/-- Map read `m[k]`: the value and `ok`, as an option. -/
def TaskMap.get : TaskMap → PeerID → Option Ptr
  | [], _ => none
  | (k', v) :: m, k => if k' = k then some v else TaskMap.get m k

/-- Map delete `delete(m, k)`. -/
def TaskMap.delete (m : TaskMap) (k : PeerID) : TaskMap :=
  m.filter (fun e => decide (e.1 ≠ k))

/-- Map write `m[k] = v`. -/
def TaskMap.set (m : TaskMap) (k : PeerID) (v : Ptr) : TaskMap :=
  (k, v) :: TaskMap.delete m k

/-- Capacity of the availability channel. -/
def updateChBufferSize : Nat := 20

/-- The struct `DialQueue`.  `updateCh` is the number of signals buffered in the
channel of capacity `updateChBufferSize`; `closeCh` tells whether the close
channel has been closed; `next` is the address the next allocated `DialTask`
gets.  The mutex is not modelled: every operation below is one critical
section. -/
structure DialQueue where
  heap : dialQueueImpl
  tasks : TaskMap
  updateCh : Nat
  closeCh : Bool
  next : Ptr

/-! ## The heap interface of `dialQueueImpl` -/

/-- Modelled from the spec: `Len` of the heap interface, the number of
slots. -/
def dialQueueImpl.Len (t : dialQueueImpl) : Nat := t.items.length

/-- Modelled from the spec: `Less` of the heap interface, missing from
`dial_queue.go`; the lower priority value is the more urgent (min-heap).  An
index outside the slice is a run-time fault (`none`). -/
def dialQueueImpl.Less (t : dialQueueImpl) (i j : Nat) : Option Bool :=
  match t.items[i]?, t.items[j]? with
  | some a, some b => some (decide ((t.mem a).priority < (t.mem b).priority))
  | _, _ => none

/-- Modelled from the spec: `Swap` of the heap interface, missing from
`dial_queue.go`; it exchanges two slots and keeps the slot field of the two
moved tasks up to date.  After the exchange slot `i` holds the old `t[j]` and
slot `j` the old `t[i]`. -/
def dialQueueImpl.Swap (t : dialQueueImpl) (i j : Nat) : Option dialQueueImpl :=
  match t.items[i]?, t.items[j]? with
  | some a, some b =>
    let m1 := Function.update t.mem b { t.mem b with index := i }
    let m2 := Function.update m1 a { m1 a with index := j }
    some ⟨m2, (t.items.set i b).set j a⟩
  | _, _ => none

/-- Modelled from the spec: `Push` of the heap interface, missing from
`dial_queue.go`; the task is appended and its slot field set to the new last
slot. -/
def dialQueueImpl.Push (t : dialQueueImpl) (x : Ptr) : dialQueueImpl :=
  let n := t.items.length
  ⟨Function.update t.mem x { t.mem x with index := n }, t.items ++ [x]⟩

/-- Modelled from the spec: `Pop` of the heap interface, missing from
`dial_queue.go`; it removes and returns the last slot, and faults on an empty
slice. -/
def dialQueueImpl.Pop (t : dialQueueImpl) : Option (dialQueueImpl × Ptr) :=
  let n := t.items.length
  match t.items[n - 1]? with
  | some item => some (⟨t.mem, t.items.take (n - 1)⟩, item)
  | none => none

/-! ## Go's `container/heap`

The loops `up` and `down` are given by recursion on a fuel argument; the
entry points start them with enough fuel (`upLoop_fuel`, `downLoop_fuel`
show that more fuel never changes the result).  Slot numbers are Go `int`s
that are never negative here, except that `h.Len() - 1` is `-1` on an empty
heap, where Go faults at the next slice access exactly as the truncated
subtraction does below. -/

/-- The loop of `heap.up`: `i := (j - 1) / 2; if i == j || !h.Less(j, i)
{ break }; h.Swap(i, j); j = i`. -/
def heap.upLoop : Nat → dialQueueImpl → Nat → Option dialQueueImpl
  | 0, h, _ => some h
  | f + 1, h, j =>
    let i := (j - 1) / 2
    if i = j then some h
    else do
      let b ← h.Less j i
      if !b then some h
      else do
        let h1 ← h.Swap i j
        heap.upLoop f h1 i

/-- `heap.up(h, j)`. -/
def heap.up (h : dialQueueImpl) (j : Nat) : Option dialQueueImpl :=
  heap.upLoop j h j

/-- The loop of `heap.down`, returning the final heap and the final `i`. -/
def heap.downLoop : Nat → dialQueueImpl → Nat → Nat → Option (dialQueueImpl × Nat)
  | 0, h, i, _ => some (h, i)
  | f + 1, h, i, n =>
    let j1 := 2 * i + 1
    if j1 ≥ n then some (h, i)
    else do
      let j2 := j1 + 1
      let r ← if j2 < n then h.Less j2 j1 else some false
      let j := if r then j2 else j1
      let b ← h.Less j i
      if !b then some (h, i)
      else do
        let h1 ← h.Swap i j
        heap.downLoop f h1 j n

/-- `heap.down(h, i0, n)`: the heap after the loop and the result `i > i0`. -/
def heap.down (h : dialQueueImpl) (i0 n : Nat) : Option (dialQueueImpl × Bool) := do
  let r ← heap.downLoop n h i0 n
  some (r.1, decide (r.2 > i0))

/-- `heap.Push(h, x)`. -/
def heap.Push (h : dialQueueImpl) (x : Ptr) : Option dialQueueImpl :=
  let h1 := h.Push x
  heap.up h1 (h1.Len - 1)

/-- `heap.Pop(h)`. -/
def heap.Pop (h : dialQueueImpl) : Option (dialQueueImpl × Ptr) := do
  let n := h.Len - 1
  let h1 ← h.Swap 0 n
  let r ← heap.down h1 0 n
  r.1.Pop

/-- `heap.Remove(h, i)`. -/
def heap.Remove (h : dialQueueImpl) (i : Nat) : Option (dialQueueImpl × Ptr) := do
  let n := h.Len - 1
  let h3 ← if n ≠ i then do
      let h1 ← h.Swap i n
      let r ← heap.down h1 i n
      if !r.2 then heap.up r.1 i else some r.1
    else some h
  h3.Pop

/-- `heap.Fix(h, i)`. -/
def heap.Fix (h : dialQueueImpl) (i : Nat) : Option dialQueueImpl := do
  let r ← heap.down h i h.Len
  if !r.2 then heap.up r.1 i else some r.1

/-! ## The dial queue -/

/-- `NewDialQueue`. -/
def NewDialQueue : DialQueue :=
  { heap := ⟨fun _ => default, []⟩, tasks := [], updateCh := 0, closeCh := false, next := 0 }

/-- `Close`: closing a channel that is already closed is a run-time fault. -/
def Close (d : DialQueue) : Option DialQueue :=
  if d.closeCh then none else some { d with closeCh := true }

/-- `popTaskImpl`: the queue afterwards and the returned task (`none` for
`nil`); the outer option is `none` on a run-time fault.  The slice holds
`*DialTask` values only, so the type assertion on the popped value succeeds
and its `!ok` branch is never taken. -/
def popTaskImpl (d : DialQueue) : Option (DialQueue × Option Ptr) :=
  if d.heap.Len ≠ 0 then do
    let r ← heap.Pop d.heap
    let task := r.2
    some ({ d with heap := r.1, tasks := d.tasks.delete (r.1.mem task).addrInfo.ID }, some task)
  else some (d, none)

/-- `DeleteTask`. -/
def DeleteTask (d : DialQueue) (peer : PeerID) : Option DialQueue :=
  match d.tasks.get peer with
  | some item => do
    let r ← heap.Remove d.heap (d.heap.mem item).index
    some { d with heap := r.1, tasks := d.tasks.delete peer }
  | none => some d

/-- `addTaskImpl`: the queue afterwards and the returned boolean. -/
def addTaskImpl (d : DialQueue) (addrInfo : AddrInfo) (priority : Nat) :
    Option (DialQueue × Bool) :=
  match d.tasks.get addrInfo.ID with
  | some item =>
    if (d.heap.mem item).priority > priority then do
      let m1 := Function.update d.heap.mem item
        { d.heap.mem item with addrInfo := addrInfo, priority := priority }
      let h1 ← heap.Fix ⟨m1, d.heap.items⟩ (m1 item).index
      some ({ d with heap := h1 }, false)
    else some (d, false)
  | none =>
    let task := d.next
    let m1 := Function.update d.heap.mem task
      { index := 0, addrInfo := addrInfo, priority := priority }
    do
      let h1 ← heap.Push ⟨m1, d.heap.items⟩ task
      some ({ d with heap := h1, tasks := d.tasks.set addrInfo.ID task, next := d.next + 1 }, true)

/-- How a call that may wait ends: it returns, or it is parked on its
`select` with the queue in the given state. -/
inductive Outcome where
  | returned (d : DialQueue)
  | blocked (d : DialQueue)

/-- The queue state an outcome leaves. -/
def Outcome.queue : Outcome → DialQueue
  | .returned d => d
  | .blocked d => d

/-- `AddTask`.  After a `true` from `addTaskImpl` the `select` has two cases
and no default: the receive from `closeCh` is ready once the queue is closed,
the send on `updateCh` is ready while the buffer holds fewer than
`updateChBufferSize` signals.  With both ready Go picks either, which
`pickClose` decides; with none ready the caller waits. -/
def AddTask (d : DialQueue) (addrInfo : AddrInfo) (priority : Nat) (pickClose : Bool) :
    Option Outcome := do
  let r ← addTaskImpl d addrInfo priority
  if r.2 then
    let canClose := r.1.closeCh
    let canSend := decide (r.1.updateCh < updateChBufferSize)
    if canClose && canSend then
      if pickClose then some (.returned r.1)
      else some (.returned { r.1 with updateCh := r.1.updateCh + 1 })
    else if canClose then some (.returned r.1)
    else if canSend then some (.returned { r.1 with updateCh := r.1.updateCh + 1 })
    else some (.blocked r.1)
  else some (.returned r.1)

/-- How a call of `PopTask` ends: it returns a task or `nil`, or it is parked on
its `select` with the queue in the given state. -/
inductive PopResult where
  | returned (d : DialQueue) (task : Option Ptr)
  | blocked (d : DialQueue)

/-- The loop of `PopTask`, run without other callers in between.  In each
iteration the `select` has two cases and no default: the receive from
`updateCh` is ready while a signal is buffered, the receive from `closeCh`
once the queue is closed.  With both ready Go picks either: `pickClose k`
tells whether iteration number `k` takes the close case.  With none ready
the caller waits. -/
def PopTaskLoop : Nat → Nat → DialQueue → (Nat → Bool) → Option PopResult
  | 0, _, d, _ => some (.blocked d)
  | f + 1, k, d, pickClose =>
    let canUpdate := decide (0 < d.updateCh)
    let canClose := d.closeCh
    if canUpdate && (!canClose || !pickClose k) then do
      let r ← popTaskImpl { d with updateCh := d.updateCh - 1 }
      match r.2 with
      | some task => some (.returned r.1 (some task))
      | none => PopTaskLoop f (k + 1) r.1 pickClose
    else if canClose then some (.returned d none)
    else some (.blocked d)

/-- `PopTask`: every iteration that does not end the loop takes a signal out of
the buffer, so one more iteration than there are buffered signals is enough
fuel (`PopTaskLoop_fuel`). -/
def PopTask (d : DialQueue) (pickClose : Nat → Bool) : Option PopResult :=
  PopTaskLoop (d.updateCh + 1) 0 d pickClose

/-- The states reachable from `NewDialQueue` by the operations of the queue:
`AddTask`, `DeleteTask` and `popTaskImpl`, and also `Close` and the two
channel events that go with `PopTask` and a waiting `AddTask`.  An `AddTask`
that is parked on its `select` has already run `addTaskImpl`, so the state it
leaves is reachable as well; `send` is such a parked call completing its send
once the buffer has room, and `recv` is `PopTask` taking one buffered signal
before it calls `popTaskImpl`. -/
inductive Reachable : DialQueue → Prop
  | init : Reachable NewDialQueue
  | add {d : DialQueue} {o : Outcome} (a : AddrInfo) (p : Nat) (c : Bool) :
      Reachable d → AddTask d a p c = some o → Reachable o.queue
  | del {d d1 : DialQueue} (id : PeerID) :
      Reachable d → DeleteTask d id = some d1 → Reachable d1
  | pop {d d1 : DialQueue} {t : Option Ptr} :
      Reachable d → popTaskImpl d = some (d1, t) → Reachable d1
  | close {d d1 : DialQueue} :
      Reachable d → Close d = some d1 → Reachable d1
  | recv {d : DialQueue} :
      Reachable d → 0 < d.updateCh → Reachable { d with updateCh := d.updateCh - 1 }
  | send {d : DialQueue} :
      Reachable d → d.updateCh < updateChBufferSize →
      Reachable { d with updateCh := d.updateCh + 1 }

/-! ## Observations -/

/-- Priority stored in heap slot `i` (0 for a slot that does not exist). -/
def dialQueueImpl.key (t : dialQueueImpl) (i : Nat) : Nat :=
  match t.items[i]? with
  | some p => (t.mem p).priority
  | none => 0

/-- Priorities of the heap slots, in slot order. -/
def dialQueueImpl.prios (t : dialQueueImpl) : List Nat :=
  t.items.map (fun p => (t.mem p).priority)

/-- Peer identities of the heap slots, in slot order. -/
def dialQueueImpl.peers (t : dialQueueImpl) : List PeerID :=
  t.items.map (fun p => (t.mem p).addrInfo.ID)

/-- Add a list of tasks one after the other, each by `AddTask` with its own
resolution of the `select`; a call that is left waiting has inserted its task
all the same, and the next call runs on the state it leaves. -/
def addAll : DialQueue → List (AddrInfo × Nat × Bool) → Option DialQueue
  | d, [] => some d
  | d, (a, p, c) :: rest => do
    let o ← AddTask d a p c
    addAll o.queue rest

/-- Pop `n` times by `popTaskImpl`, collecting the priorities of the returned
tasks (a `nil` return contributes nothing). -/
def popN : Nat → DialQueue → Option (DialQueue × List Nat)
  | 0, d => some (d, [])
  | n + 1, d => do
    let r ← popTaskImpl d
    let rest ← popN n r.1
    match r.2 with
    | some t => some (rest.1, (r.1.heap.mem t).priority :: rest.2)
    | none => some (rest.1, rest.2)

/-! ## Heap order on a function from slots to priorities -/

/-- Exchange of the values at `i` and `j`. -/
def swapF (a : Nat → Nat) (i j : Nat) : Nat → Nat :=
  fun k => if k = i then a j else if k = j then a i else a k

/-- Min-heap order on the slots below `n`: every slot is at least its parent. -/
def HeapTo (a : Nat → Nat) (n : Nat) : Prop :=
  ∀ j, 0 < j → j < n → a ((j - 1) / 2) ≤ a j

/-- The children of `k` are at least the parent of `k`. -/
def GrandOK (a : Nat → Nat) (n k : Nat) : Prop :=
  0 < k → ∀ j, 0 < j → j < n → (j - 1) / 2 = k → a ((k - 1) / 2) ≤ a j

/-- Heap order except possibly between `k` and its children. -/
def ExcDown (a : Nat → Nat) (n k : Nat) : Prop :=
  (∀ j, 0 < j → j < n → (j - 1) / 2 ≠ k → a ((j - 1) / 2) ≤ a j) ∧ GrandOK a n k

/-- Heap order except possibly between `k` and its parent. -/
def ExcUp (a : Nat → Nat) (n k : Nat) : Prop :=
  (∀ j, 0 < j → j < n → j ≠ k → a ((j - 1) / 2) ≤ a j) ∧ GrandOK a n k

/-- Heap order except possibly on the edges that touch `k`. -/
def ExcBoth (a : Nat → Nat) (n k : Nat) : Prop :=
  (∀ j, 0 < j → j < n → j ≠ k → (j - 1) / 2 ≠ k → a ((j - 1) / 2) ≤ a j) ∧ GrandOK a n k

/-- Slot fields agree with positions: the task in slot `i` has `index = i`. -/
def IdxOK (t : dialQueueImpl) : Prop :=
  ∀ i p, t.items[i]? = some p → (t.mem p).index = i

/-- The heap `t1` holds the same tasks as `t` with the same data, possibly in
other slots; objects outside the heap are untouched. -/
structure Shuffled (t t1 : dialQueueImpl) : Prop where
  perm : t1.items.Perm t.items
  prio : ∀ p, (t1.mem p).priority = (t.mem p).priority
  addr : ∀ p, (t1.mem p).addrInfo = (t.mem p).addrInfo
  out : ∀ p, p ∉ t.items → t1.mem p = t.mem p

/-- The slots from `n` on are the same in both heaps. -/
def SameFrom (n : Nat) (t t1 : dialQueueImpl) : Prop :=
  ∀ k, n ≤ k → t1.items[k]? = t.items[k]?

/-- The child of `i` that `heap.down` compares with `i`: the right child when it
exists below `n` and is smaller than the left one, else the left child. -/
def minChild (a : Nat → Nat) (n i : Nat) : Nat :=
  if 2 * i + 2 < n ∧ a (2 * i + 2) < a (2 * i + 1) then 2 * i + 2 else 2 * i + 1

/-- The heap `t1` is `t` without the task `p`: the other tasks are kept with
their data, possibly in other slots. -/
structure Removed (t t1 : dialQueueImpl) (p : Ptr) : Prop where
  perm : (p :: t1.items).Perm t.items
  prio : ∀ q, (t1.mem q).priority = (t.mem q).priority
  addr : ∀ q, (t1.mem q).addrInfo = (t.mem q).addrInfo
  out : ∀ q, q ∉ t.items → t1.mem q = t.mem q

/-- Well-formedness of a queue state: slot fields are accurate, the heap is
ordered, allocated objects lie below `next`, the map has one entry per key,
and map and heap hold the same tasks under their own peer identity. -/
structure WF (d : DialQueue) : Prop where
  idx : IdxOK d.heap
  ord : HeapTo d.heap.key d.heap.Len
  fresh : ∀ p, p ∈ d.heap.items → p < d.next
  keys : (d.tasks.map Prod.fst).Nodup
  mapHeap : ∀ id p, d.tasks.get id = some p →
    p ∈ d.heap.items ∧ (d.heap.mem p).addrInfo.ID = id
  heapMap : ∀ p, p ∈ d.heap.items → d.tasks.get (d.heap.mem p).addrInfo.ID = some p

/-- Priority stored for the peer `id`, if it has a pending task. -/
def storedPriority (d : DialQueue) (id : PeerID) : Option Nat :=
  (d.tasks.get id).map (fun p => (d.heap.mem p).priority)

/-- Address hint stored for the peer `id`, if it has a pending task. -/
def storedAddrInfo (d : DialQueue) (id : PeerID) : Option AddrInfo :=
  (d.tasks.get id).map (fun p => (d.heap.mem p).addrInfo)

/-- Whether the call was left waiting on its `select`. -/
def Outcome.isBlocked : Outcome → Bool
  | .returned _ => false
  | .blocked _ => true

/-- One call on the queue: `AddTask` with its resolution of the `select`,
`DeleteTask`, or `popTaskImpl`. -/
inductive Op where
  | add (a : AddrInfo) (p : Nat) (c : Bool)
  | del (id : PeerID)
  | pop

/-- Run a list of calls one after the other, collecting the peer identities of
the tasks that the pops return. -/
def runOps : DialQueue → List Op → Option (DialQueue × List PeerID)
  | d, [] => some (d, [])
  | d, Op.add a p c :: rest => do
    let o ← AddTask d a p c
    runOps o.queue rest
  | d, Op.del id :: rest => do
    let d1 ← DeleteTask d id
    runOps d1 rest
  | d, Op.pop :: rest => do
    let r ← popTaskImpl d
    let out ← runOps r.1 rest
    match r.2 with
    | some t => some (out.1, (r.1.heap.mem t).addrInfo.ID :: out.2)
    | none => some out

/-- The task a call of `PopTask` returned: `none` for `nil`, and also for a call
that is left waiting. -/
def PopResult.task : PopResult → Option Ptr
  | .returned _ t => t
  | .blocked _ => none

/-- The queue state a call of `PopTask` leaves. -/
def PopResult.queue : PopResult → DialQueue
  | .returned d _ => d
  | .blocked d => d

/-- Whether the call of `PopTask` was left waiting on its `select`. -/
def PopResult.isBlocked : PopResult → Bool
  | .returned _ _ => false
  | .blocked _ => true

/-- Address hint and priority of the heap slots, in slot order. -/
def dialQueueImpl.entries (t : dialQueueImpl) : List (AddrInfo × Nat) :=
  t.items.map (fun p => ((t.mem p).addrInfo, (t.mem p).priority))

/-- Pop `n` times by `popTaskImpl`, collecting address hint and priority of the
returned tasks (a `nil` return contributes nothing). -/
def popTasks : Nat → DialQueue → Option (DialQueue × List (AddrInfo × Nat))
  | 0, d => some (d, [])
  | n + 1, d => do
    let r ← popTaskImpl d
    let rest ← popTasks n r.1
    match r.2 with
    | some t => some (rest.1, ((r.1.heap.mem t).addrInfo, (r.1.heap.mem t).priority) :: rest.2)
    | none => some (rest.1, rest.2)

/-- Call `PopTask` `n` times, each call running to completion before the next
starts, and collect the returned tasks; the result is `none` as soon as a call
faults, is left waiting, or returns `nil`. -/
def popTaskN : Nat → DialQueue → (Nat → Bool) → Option (DialQueue × List Ptr)
  | 0, d, _ => some (d, [])
  | n + 1, d, pickClose =>
    match PopTask d pickClose with
    | some (.returned d1 (some t)) =>
      (popTaskN n d1 pickClose).map (fun r => (r.1, t :: r.2))
    | _ => none

/-- The states reached from `NewDialQueue` when every call of `AddTask`,
`DeleteTask` and `PopTask` is one atomic step that runs to completion: a call
that would be left waiting is not a step.  `Close` is not among the steps, so
these are states of a queue that has not been closed. -/
inductive Completed : DialQueue → Prop
  | init : Completed NewDialQueue
  | add {d d1 : DialQueue} (a : AddrInfo) (p : Nat) (c : Bool) :
      Completed d → AddTask d a p c = some (.returned d1) → Completed d1
  | del {d d1 : DialQueue} (id : PeerID) :
      Completed d → DeleteTask d id = some d1 → Completed d1
  | pop {d d1 : DialQueue} {t : Option Ptr} (pickClose : Nat → Bool) :
      Completed d → PopTask d pickClose = some (.returned d1 t) → Completed d1

/-! ## Example states -/

/-- Three tasks for the peers 1, 2, 3 with priorities 5, 1, 3. -/
def tasks513 : List (AddrInfo × Nat × Bool) :=
  [(⟨1, []⟩, 5, false), (⟨2, []⟩, 1, false), (⟨3, []⟩, 3, false)]

/-- The queue after the tasks of `tasks513` are added to the empty queue. -/
def queue513 : DialQueue :=
  (addAll NewDialQueue tasks513).getD NewDialQueue

/-- One task for the peer 7 with priority 10. -/
def tasksP10 : List (AddrInfo × Nat × Bool) := [(⟨7, [1]⟩, 10, false)]

/-- The queue after the peer 7 is added with priority 10. -/
def queueP10 : DialQueue := (addAll NewDialQueue tasksP10).getD NewDialQueue

/-- Two tasks: peer 1 (`A`) with priority 1 and peer 2 (`B`) with priority 2. -/
def tasksAB : List (AddrInfo × Nat × Bool) := [(⟨1, []⟩, 1, false), (⟨2, []⟩, 2, false)]

/-- The queue after `A` and `B` are added. -/
def queueAB : DialQueue := (addAll NewDialQueue tasksAB).getD NewDialQueue

/-- Twenty tasks for the peers 1..20, the priority of each being its peer
number. -/
def tasks20 : List (AddrInfo × Nat × Bool) :=
  (List.range 20).map (fun i => (⟨i + 1, []⟩, i + 1, false))

/-- The queue after twenty `AddTask` calls for distinct peers and no `PopTask`:
it is not closed and its signal buffer is full. -/
def queueFull : DialQueue := (addAll NewDialQueue tasks20).getD NewDialQueue

/-- The queue holding the priorities 5, 1, 3 after `Close`: it is closed, three
signals are buffered and three tasks are pending. -/
def queueClosed513 : DialQueue := (Close queue513).getD NewDialQueue

/-- The empty queue after `Close`. -/
def queueClosedEmpty : DialQueue := (Close NewDialQueue).getD NewDialQueue

/-- The tasks of `tasks513` in another order. -/
def tasks351 : List (AddrInfo × Nat × Bool) :=
  [(⟨3, []⟩, 3, true), (⟨1, []⟩, 5, false), (⟨2, []⟩, 1, false)]

/-- The calls that remove `A` and `B` again. -/
def opsDelAB : List Op := [Op.del 1, Op.del 2]

/-- The queue after `A` and `B` are added and removed again: the heap is empty
and the two signals of the adds are still buffered. -/
def queueStale : DialQueue := ((runOps queueAB opsDelAB).map Prod.fst).getD NewDialQueue

/-- The queue `queueStale` after `Close`. -/
def queueStaleClosed : DialQueue := (Close queueStale).getD NewDialQueue

/-- The queue after `A` alone is added. -/
def queueA : DialQueue :=
  (addAll NewDialQueue [(⟨1, []⟩, 1, false)]).getD NewDialQueue

/-! ## Sifting steps on a function from slots to priorities -/

theorem ExcDown.toExcBoth {a : Nat → Nat} {n k : Nat} (h : ExcDown a n k) : ExcBoth a n k :=
  ⟨fun j h0 hn _ hp => h.1 j h0 hn hp, h.2⟩

theorem ExcDown.heap_of_children {a : Nat → Nat} {n k : Nat} (h : ExcDown a n k)
    (hc : ∀ c, 0 < c → c < n → (c - 1) / 2 = k → a k ≤ a c) : HeapTo a n := by
  intro j h0 hn
  by_cases hp : (j - 1) / 2 = k
  · rw [hp]; exact hc j h0 hn hp
  · exact h.1 j h0 hn hp

theorem ExcBoth.excUp_of_children {a : Nat → Nat} {n k : Nat} (h : ExcBoth a n k)
    (hc : ∀ c, 0 < c → c < n → (c - 1) / 2 = k → a k ≤ a c) : ExcUp a n k := by
  refine ⟨?_, h.2⟩
  intro j h0 hn hjk
  by_cases hp : (j - 1) / 2 = k
  · rw [hp]; exact hc j h0 hn hp
  · exact h.1 j h0 hn hjk hp

theorem ExcUp.heap_of_parent {a : Nat → Nat} {n k : Nat} (h : ExcUp a n k)
    (hk : (k - 1) / 2 = k ∨ a ((k - 1) / 2) ≤ a k) : HeapTo a n := by
  intro j h0 hn
  by_cases hjk : j = k
  · subst hjk
    rcases hk with hk | hk
    · omega
    · exact hk
  · exact h.1 j h0 hn hjk

theorem ExcBoth.swap_down {a : Nat → Nat} {n k j : Nat} (h : ExcBoth a n k)
    (hj0 : 0 < j) (hjn : j < n) (hjk : (j - 1) / 2 = k) (hlt : a j < a k)
    (hmin : ∀ c, 0 < c → c < n → (c - 1) / 2 = k → a j ≤ a c) :
    ExcDown (swapF a k j) n j := by
  have hkj : k < j := by omega
  constructor
  · intro c hc0 hcn hcp
    by_cases hck : c = k
    · -- edge from the parent of k into k
      subst hck
      have hc1 : (c - 1) / 2 ≠ c := by omega
      have hc2 : (c - 1) / 2 ≠ j := by omega
      have := h.2 hc0 j hj0 hjn hjk
      simp only [swapF, if_true, hc1, hc2, if_false]
      exact this
    · by_cases hcpk : (c - 1) / 2 = k
      · -- a child of k
        have := hmin c hc0 hcn hcpk
        simp only [swapF, hcpk, if_true, hck, if_false]
        split_ifs <;> omega
      · have hcj : c ≠ j := fun e => hcpk (e ▸ hjk)
        have := h.1 c hc0 hcn hck hcpk
        simp only [swapF, hcpk, hcp, hck, hcj, if_false]
        exact this
  · intro _ c hc0 hcn hcp
    have hck : c ≠ k := by omega
    have hcj : c ≠ j := by omega
    have hjk2 : j ≠ k := by omega
    have := h.1 c hc0 hcn hck (by omega)
    rw [hcp] at this
    simp only [swapF, hjk, if_true, hck, hcj, if_false]
    exact this

theorem ExcUp.swap_up {a : Nat → Nat} {n k : Nat} (h : ExcUp a n k)
    (hk0 : 0 < k) (hkn : k < n) (hlt : a k < a ((k - 1) / 2)) :
    ExcUp (swapF a ((k - 1) / 2) k) n ((k - 1) / 2) := by
  have hpk : (k - 1) / 2 < k := by omega
  constructor
  · intro c hc0 hcn hcp
    by_cases hck : c = k
    · subst hck
      simp only [swapF, if_true]
      split_ifs <;> omega
    · by_cases hcpk : (c - 1) / 2 = k
      · -- child of k
        have := h.2 hk0 c hc0 hcn hcpk
        have e1 : k ≠ (k - 1) / 2 := by omega
        simp only [swapF, hcpk, e1, hcp, hck, if_true, if_false]
        exact this
      · by_cases hcpp : (c - 1) / 2 = (k - 1) / 2
        · -- sibling of k
          have := h.1 c hc0 hcn hck
          simp only [swapF, hcpp, hcp, hck, if_true, if_false]
          rw [hcpp] at this
          omega
        · have := h.1 c hc0 hcn hck
          simp only [swapF, hcpp, hcpk, hcp, hck, if_false]
          exact this
  · intro hp0 c hc0 hcn hcp
    have hpar := h.1 ((k - 1) / 2) hp0 (by omega) (by omega)
    have e1 : ((k - 1) / 2 - 1) / 2 ≠ (k - 1) / 2 := by omega
    have e2 : ((k - 1) / 2 - 1) / 2 ≠ k := by omega
    have e3 : c ≠ (k - 1) / 2 := by omega
    by_cases hck : c = k
    · subst hck
      simp only [swapF, e1, e2, e3, if_true, if_false]
      exact hpar
    · have := h.1 c hc0 hcn hck
      rw [hcp] at this
      simp only [swapF, e1, e2, e3, hck, if_false]
      omega

theorem Shuffled.refl (t : dialQueueImpl) : Shuffled t t :=
  ⟨List.Perm.refl _, fun _ => rfl, fun _ => rfl, fun _ _ => rfl⟩

theorem Shuffled.comp {t t1 t2 : dialQueueImpl} (h1 : Shuffled t t1) (h2 : Shuffled t1 t2) :
    Shuffled t t2 :=
  ⟨h2.perm.trans h1.perm, fun p => (h2.prio p).trans (h1.prio p),
    fun p => (h2.addr p).trans (h1.addr p),
    fun p hp => (h2.out p (fun h => hp (h1.perm.mem_iff.mp h))).trans (h1.out p hp)⟩

theorem Shuffled.len {t t1 : dialQueueImpl} (h : Shuffled t t1) : t1.Len = t.Len :=
  h.perm.length_eq

theorem IdxOK.nodup {t : dialQueueImpl} (h : IdxOK t) : t.items.Nodup := by
  rw [List.nodup_iff_injective_get]
  intro i j hij
  have hi := h i.1 (t.items.get i) (by simp)
  have hj := h j.1 (t.items.get j) (by simp)
  rw [hij] at hi
  exact Fin.ext (hi.symm.trans hj)

theorem IdxOK.inj {t : dialQueueImpl} (h : IdxOK t) {i j : Nat} {p : Ptr}
    (hi : t.items[i]? = some p) (hj : t.items[j]? = some p) : i = j :=
  (h i p hi).symm.trans (h j p hj)

theorem key_of_get {t : dialQueueImpl} {i : Nat} {p : Ptr} (h : t.items[i]? = some p) :
    t.key i = (t.mem p).priority := by
  simp [dialQueueImpl.key, h]

theorem get_of_lt {t : dialQueueImpl} {i : Nat} (h : i < t.Len) :
    ∃ p, t.items[i]? = some p :=
  ⟨t.items[i], List.getElem?_eq_getElem h⟩

theorem Less_eq {t : dialQueueImpl} {i j : Nat} (hi : i < t.Len) (hj : j < t.Len) :
    t.Less i j = some (decide (t.key i < t.key j)) := by
  obtain ⟨a, ha⟩ := get_of_lt hi
  obtain ⟨b, hb⟩ := get_of_lt hj
  simp [dialQueueImpl.Less, dialQueueImpl.key, ha, hb]

theorem swap_perm {l : List Ptr} {i j : Nat} {a b : Ptr}
    (hi : l[i]? = some a) (hj : l[j]? = some b) : ((l.set i b).set j a).Perm l := by
  have hil : i < l.length := by
    by_contra h; rw [List.getElem?_eq_none (by omega)] at hi; cases hi
  have hjl : j < l.length := by
    by_contra h; rw [List.getElem?_eq_none (by omega)] at hj; cases hj
  have hia : l[i] = a := by
    rw [List.getElem?_eq_getElem hil] at hi; exact Option.some.inj hi
  have hjb : l[j] = b := by
    rw [List.getElem?_eq_getElem hjl] at hj; exact Option.some.inj hj
  rw [List.perm_iff_count]
  intro c
  have hjl2 : j < (l.set i b).length := by simpa using hjl
  rw [List.count_set _ _ _ _ hjl2, List.count_set _ _ _ _ hil, List.getElem_set, hia]
  have ha : 0 < l.count a := List.count_pos_iff.mpr (hia ▸ List.getElem_mem hil)
  have hb : 0 < l.count b := List.count_pos_iff.mpr (hjb ▸ List.getElem_mem hjl)
  by_cases hij : i = j
  · subst hij
    have hab : a = b := hia.symm.trans hjb
    subst hab
    simp only [if_true, beq_iff_eq]
    split_ifs with h1
    · subst h1; omega
    · omega
  · simp only [hij, if_false, hjb, beq_iff_eq]
    split_ifs with h1 h2 h2
    · subst h1; subst h2; omega
    · subst h1; omega
    · subst h2; omega
    · omega

theorem Swap_spec {t : dialQueueImpl} {i j : Nat} (hi : i < t.Len) (hj : j < t.Len)
    (hidx : IdxOK t) :
    ∃ t1, t.Swap i j = some t1 ∧ Shuffled t t1 ∧ IdxOK t1 ∧
      t1.key = swapF t.key i j ∧
      (∀ k, k ≠ i → k ≠ j → t1.items[k]? = t.items[k]?) ∧
      t1.items[i]? = t.items[j]? ∧ t1.items[j]? = t.items[i]? := by
  obtain ⟨a, ha⟩ := get_of_lt hi
  obtain ⟨b, hb⟩ := get_of_lt hj
  have hil : i < t.items.length := hi
  have hjl : j < t.items.length := hj
  have gi : ((t.items.set i b).set j a)[i]? = some b := by
    by_cases hij : i = j
    · subst hij
      have : a = b := Option.some.inj (ha.symm.trans hb)
      simp [List.getElem?_set, hil, this]
    · simp [List.getElem?_set, hil, hij, Ne.symm hij]
  have gj : ((t.items.set i b).set j a)[j]? = some a := by
    simp [List.getElem?_set, hjl]
  have gk : ∀ k, k ≠ i → k ≠ j → ((t.items.set i b).set j a)[k]? = t.items[k]? := by
    intro k hki hkj
    simp [List.getElem?_set, Ne.symm hki, Ne.symm hkj]
  refine ⟨⟨Function.update (Function.update t.mem b { t.mem b with index := i }) a
      { Function.update t.mem b { t.mem b with index := i } a with index := j },
      (t.items.set i b).set j a⟩, by simp only [dialQueueImpl.Swap, ha, hb], ?_, ?_, ?_, gk, ?_, ?_⟩
  · refine ⟨swap_perm ha hb, ?_, ?_, ?_⟩
    · intro p
      simp only [Function.update_apply]
      split_ifs with h1 h2 h2 <;> simp_all
    · intro p
      simp only [Function.update_apply]
      split_ifs with h1 h2 h2 <;> simp_all
    · intro p hp
      have h1 : p ≠ a := fun e => hp (e ▸ List.getElem?_mem ha)
      have h2 : p ≠ b := fun e => hp (e ▸ List.getElem?_mem hb)
      simp [Function.update_apply, h1, h2]
  · intro k p hk
    by_cases hkj : k = j
    · subst hkj
      rw [gj] at hk
      cases hk
      simp [Function.update_apply]
    · by_cases hki : k = i
      · subst hki
        rw [gi] at hk
        have hpb : p = b := (Option.some.inj hk).symm
        subst hpb
        have hpa : p ≠ a := fun e => hkj (hidx.inj ha (e ▸ hb))
        simp [Function.update_apply, hpa]
      · rw [gk k hki hkj] at hk
        have hpa : p ≠ a := fun e => hki (hidx.inj hk (e ▸ ha))
        have hpb : p ≠ b := fun e => hkj (hidx.inj hk (e ▸ hb))
        simp only [Function.update_apply, hpa, hpb, if_false]
        exact hidx k p hk
  · funext k
    have pr : ∀ p, ((Function.update (Function.update t.mem b { t.mem b with index := i }) a
        { Function.update t.mem b { t.mem b with index := i } a with index := j }) p).priority
          = (t.mem p).priority := by
      intro p
      simp only [Function.update_apply]
      split_ifs with h1 h2 h2 <;> simp_all
    simp only [dialQueueImpl.key, swapF]
    by_cases hki : k = i
    · subst hki
      simp only [gi, hb, if_true, pr]
    · by_cases hkj : k = j
      · subst hkj
        simp only [gj, ha, hki, if_false, if_true, pr]
      · simp only [gk k hki hkj, hki, hkj, if_false]
        cases t.items[k]? <;> simp only [pr]
  · exact gi.trans hb.symm
  · exact gj.trans ha.symm

/-! ## The loops of `container/heap` -/

theorem upLoop_zero (f : Nat) (t : dialQueueImpl) : heap.upLoop f t 0 = some t := by
  cases f <;> simp [heap.upLoop]

theorem upLoop_succ {f : Nat} {t : dialQueueImpl} {j : Nat} (hj : j < t.Len) :
    heap.upLoop (f + 1) t j =
      if (j - 1) / 2 = j then some t
      else if t.key j < t.key ((j - 1) / 2) then
        (t.Swap ((j - 1) / 2) j).bind (fun t1 => heap.upLoop f t1 ((j - 1) / 2))
      else some t := by
  have hp : (j - 1) / 2 < t.Len := by omega
  simp only [heap.upLoop, Less_eq hj hp]
  split_ifs <;> simp_all

theorem downLoop_stop {f : Nat} {t : dialQueueImpl} {i n : Nat} (h : n ≤ 2 * i + 1) :
    heap.downLoop f t i n = some (t, i) := by
  cases f <;> simp [heap.downLoop, h]

theorem downLoop_succ {f : Nat} {t : dialQueueImpl} {i n : Nat} (h1 : 2 * i + 1 < n)
    (hn : n ≤ t.Len) :
    heap.downLoop (f + 1) t i n =
      if t.key (minChild t.key n i) < t.key i then
        (t.Swap i (minChild t.key n i)).bind
          (fun t1 => heap.downLoop f t1 (minChild t.key n i) n)
      else some (t, i) := by
  have hi : i < t.Len := by omega
  have hj1 : 2 * i + 1 < t.Len := by omega
  have hnot : ¬ (2 * i + 1 ≥ n) := by omega
  by_cases h2 : 2 * i + 1 + 1 < n
  · have hj2 : 2 * i + 1 + 1 < t.Len := by omega
    by_cases h3 : t.key (2 * i + 1 + 1) < t.key (2 * i + 1)
    · have hm : minChild t.key n i = 2 * i + 1 + 1 := by
        simp only [minChild]; rw [if_pos ⟨h2, h3⟩]
      simp only [heap.downLoop, hnot, if_false, h2, if_true, Less_eq hj2 hj1, h3, hm,
        Option.bind_eq_bind, Option.some_bind, decide_True, Less_eq hj2 hi]
      split_ifs <;> simp_all
    · have hm : minChild t.key n i = 2 * i + 1 := by
        simp only [minChild]; rw [if_neg (fun h => h3 h.2)]
      simp only [heap.downLoop, hnot, if_false, h2, if_true, Less_eq hj2 hj1, h3, hm,
        Option.bind_eq_bind, Option.some_bind, decide_False, Less_eq hj1 hi, Bool.false_eq_true]
      split_ifs <;> simp_all
  · have hm : minChild t.key n i = 2 * i + 1 := by
      simp only [minChild]; rw [if_neg (fun h => h2 h.1)]
    simp only [heap.downLoop, hnot, if_false, h2, hm,
      Option.bind_eq_bind, Option.some_bind, Less_eq hj1 hi, Bool.false_eq_true]
    split_ifs <;> simp_all

theorem minChild_spec (a : Nat → Nat) {n i : Nat} (h1 : 2 * i + 1 < n) :
    0 < minChild a n i ∧ minChild a n i < n ∧ (minChild a n i - 1) / 2 = i ∧
      ∀ c, 0 < c → c < n → (c - 1) / 2 = i → a (minChild a n i) ≤ a c := by
  unfold minChild
  split_ifs with h
  · refine ⟨by omega, by omega, by omega, ?_⟩
    intro c hc0 hcn hcp
    have : c = 2 * i + 1 ∨ c = 2 * i + 2 := by omega
    rcases this with e | e <;> subst e <;> omega
  · refine ⟨by omega, by omega, by omega, ?_⟩
    intro c hc0 hcn hcp
    have : c = 2 * i + 1 ∨ c = 2 * i + 2 := by omega
    rcases this with e | e
    · subst e; omega
    · subst e
      have : ¬ a (2 * i + 2) < a (2 * i + 1) := fun h3 => h ⟨hcn, h3⟩
      omega

/-- More fuel than the slot number never changes the result of the `up` loop. -/
theorem upLoop_fuel : ∀ (f g : Nat) (t : dialQueueImpl) (j : Nat), j ≤ f → j ≤ g →
    heap.upLoop f t j = heap.upLoop g t j := by
  intro f
  induction f with
  | zero =>
    intro g t j hf _
    have : j = 0 := by omega
    subst this
    rw [upLoop_zero, upLoop_zero]
  | succ f ih =>
    intro g t j hf hg
    cases g with
    | zero =>
      have : j = 0 := by omega
      subst this
      rw [upLoop_zero, upLoop_zero]
    | succ g =>
      by_cases hj0 : (j - 1) / 2 = j
      · simp [heap.upLoop, hj0]
      · simp only [heap.upLoop, hj0, if_false]
        have e : ∀ t1, heap.upLoop f t1 ((j - 1) / 2) = heap.upLoop g t1 ((j - 1) / 2) :=
          fun t1 => ih g t1 _ (by omega) (by omega)
        simp only [e]

/-- More fuel than the distance to `n` never changes the result of the `down`
loop. -/
theorem downLoop_fuel : ∀ (f g : Nat) (t : dialQueueImpl) (i n : Nat), n ≤ f + i → n ≤ g + i →
    heap.downLoop f t i n = heap.downLoop g t i n := by
  intro f
  induction f with
  | zero =>
    intro g t i n hf _
    rw [downLoop_stop (by omega), downLoop_stop (by omega)]
  | succ f ih =>
    intro g t i n hf hg
    cases g with
    | zero => rw [downLoop_stop (by omega), downLoop_stop (by omega)]
    | succ g =>
      by_cases h1 : 2 * i + 1 ≥ n
      · rw [downLoop_stop (by omega), downLoop_stop (by omega)]
      · simp only [heap.downLoop, h1, if_false]
        have e : ∀ (t1 : dialQueueImpl) (r : Bool),
            heap.downLoop f t1 (if r = true then 2 * i + 1 + 1 else 2 * i + 1) n =
              heap.downLoop g t1 (if r = true then 2 * i + 1 + 1 else 2 * i + 1) n := by
          intro t1 r
          refine ih g t1 _ n ?_ ?_ <;> cases r <;> simp <;> omega
        simp only [e]

theorem downLoop_spec : ∀ (f : Nat) (t : dialQueueImpl) (i n : Nat), n ≤ f + i → n ≤ t.Len →
    IdxOK t → ExcBoth t.key n i →
    ∃ t1 i1, heap.downLoop f t i n = some (t1, i1) ∧ Shuffled t t1 ∧ IdxOK t1 ∧
      SameFrom n t t1 ∧
      ((i1 = i ∧ t1 = t ∧ ∀ c, 0 < c → c < n → (c - 1) / 2 = i → t.key i ≤ t.key c) ∨
        (i < i1 ∧ HeapTo t1.key n)) := by
  intro f
  induction f with
  | zero =>
    intro t i n hf _ hidx _
    refine ⟨t, i, downLoop_stop (by omega), Shuffled.refl t, hidx, fun _ _ => rfl, ?_⟩
    exact Or.inl ⟨rfl, rfl, fun c _ hcn hcp => by omega⟩
  | succ f ih =>
    intro t i n hf hn hidx hexc
    by_cases h1 : 2 * i + 1 < n
    · obtain ⟨hm0, hmn, hmp, hmin⟩ := minChild_spec t.key h1
      rw [downLoop_succ h1 hn]
      by_cases hlt : t.key (minChild t.key n i) < t.key i
      · rw [if_pos hlt]
        obtain ⟨t1, hsw, hsh, hidx1, hkey, hfr, -, -⟩ :=
          Swap_spec (t := t) (i := i) (j := minChild t.key n i) (by omega) (by omega) hidx
        have hexc1 : ExcDown t1.key n (minChild t.key n i) := by
          rw [hkey]; exact hexc.swap_down hm0 hmn hmp hlt hmin
        obtain ⟨t2, i2, hrun, hsh2, hidx2, hsf2, hres⟩ :=
          ih t1 (minChild t.key n i) n (by omega) (by rw [hsh.len]; exact hn) hidx1 hexc1.toExcBoth
        refine ⟨t2, i2, by rw [hsw]; exact hrun, hsh.comp hsh2, hidx2, ?_, Or.inr ?_⟩
        · intro k hk
          rw [hsf2 k hk]
          exact hfr k (by omega) (by omega)
        · rcases hres with ⟨e1, e2, hch⟩ | ⟨hlt2, hheap⟩
          · subst e1; subst e2
            exact ⟨by omega, hexc1.heap_of_children hch⟩
          · exact ⟨by omega, hheap⟩
      · rw [if_neg hlt]
        refine ⟨t, i, rfl, Shuffled.refl t, hidx, fun _ _ => rfl, Or.inl ⟨rfl, rfl, ?_⟩⟩
        intro c hc0 hcn hcp
        have := hmin c hc0 hcn hcp
        omega
    · refine ⟨t, i, downLoop_stop (by omega), Shuffled.refl t, hidx, fun _ _ => rfl, ?_⟩
      exact Or.inl ⟨rfl, rfl, fun c _ hcn hcp => by omega⟩

theorem upLoop_spec : ∀ (f : Nat) (t : dialQueueImpl) (j n : Nat), j ≤ f → j < n → n ≤ t.Len →
    IdxOK t → ExcUp t.key n j →
    ∃ t1, heap.upLoop f t j = some t1 ∧ Shuffled t t1 ∧ IdxOK t1 ∧ SameFrom n t t1 ∧
      HeapTo t1.key n := by
  intro f
  induction f with
  | zero =>
    intro t j n hf _ _ hidx hexc
    have : j = 0 := by omega
    subst this
    exact ⟨t, upLoop_zero 0 t, Shuffled.refl t, hidx, fun _ _ => rfl,
      hexc.heap_of_parent (Or.inl (by omega))⟩
  | succ f ih =>
    intro t j n hf hjn hn hidx hexc
    rw [upLoop_succ (by omega)]
    by_cases hp : (j - 1) / 2 = j
    · rw [if_pos hp]
      exact ⟨t, rfl, Shuffled.refl t, hidx, fun _ _ => rfl, hexc.heap_of_parent (Or.inl hp)⟩
    · rw [if_neg hp]
      by_cases hlt : t.key j < t.key ((j - 1) / 2)
      · rw [if_pos hlt]
        obtain ⟨t1, hsw, hsh, hidx1, hkey, hfr, -, -⟩ :=
          Swap_spec (t := t) (i := (j - 1) / 2) (j := j) (by omega) (by omega) hidx
        have hexc1 : ExcUp t1.key n ((j - 1) / 2) := by
          rw [hkey]; exact hexc.swap_up (by omega) hjn hlt
        obtain ⟨t2, hrun, hsh2, hidx2, hsf2, hheap⟩ :=
          ih t1 ((j - 1) / 2) n (by omega) (by omega) (by rw [hsh.len]; exact hn) hidx1 hexc1
        refine ⟨t2, by rw [hsw]; exact hrun, hsh.comp hsh2, hidx2, ?_, hheap⟩
        intro k hk
        rw [hsf2 k hk]
        exact hfr k (by omega) (by omega)
      · rw [if_neg hlt]
        exact ⟨t, rfl, Shuffled.refl t, hidx, fun _ _ => rfl, hexc.heap_of_parent (Or.inr (by omega))⟩

/-! ## The entry points of `container/heap` -/

theorem downLoop_heap {f : Nat} {t : dialQueueImpl} {i n : Nat} (hf : n ≤ f + i)
    (hn : n ≤ t.Len) (hidx : IdxOK t) (hexc : ExcDown t.key n i) :
    ∃ t1 i1, heap.downLoop f t i n = some (t1, i1) ∧ Shuffled t t1 ∧ IdxOK t1 ∧
      SameFrom n t t1 ∧ HeapTo t1.key n := by
  obtain ⟨t1, i1, hrun, hsh, hidx1, hsf, hres⟩ := downLoop_spec f t i n hf hn hidx hexc.toExcBoth
  refine ⟨t1, i1, hrun, hsh, hidx1, hsf, ?_⟩
  rcases hres with ⟨_, e2, hch⟩ | ⟨_, hheap⟩
  · subst e2; exact hexc.heap_of_children hch
  · exact hheap

theorem HeapTo.mono {a : Nat → Nat} {n m : Nat} (h : HeapTo a n) (hm : m ≤ n) : HeapTo a m :=
  fun j h0 hj => h j h0 (by omega)

theorem Pop_spec {t : dialQueueImpl} {p : Ptr} (hlast : t.items[t.Len - 1]? = some p)
    (hidx : IdxOK t) (hheap : HeapTo t.key (t.Len - 1)) :
    ∃ t1, t.Pop = some (t1, p) ∧ Removed t t1 p ∧ IdxOK t1 ∧ HeapTo t1.key t1.Len ∧
      t1.Len = t.Len - 1 := by
  have hlast1 : t.items[t.items.length - 1]? = some p := hlast
  have hpos : t.items.length - 1 < t.items.length := by
    by_contra h
    rw [List.getElem?_eq_none (by omega)] at hlast1
    cases hlast1
  refine ⟨⟨t.mem, t.items.take (t.items.length - 1)⟩, ?_, ?_, ?_, ?_, ?_⟩
  · simp only [dialQueueImpl.Pop, hlast1]
  · refine ⟨?_, fun _ => rfl, fun _ => rfl, fun _ _ => rfl⟩
    have e : t.items = t.items.take (t.items.length - 1) ++ [p] := by
      conv_lhs => rw [← List.take_append_drop (t.items.length - 1) t.items]
      congr 1
      rw [List.drop_eq_getElem_cons hpos]
      have hp : t.items[t.items.length - 1] = p := by
        rw [List.getElem?_eq_getElem hpos] at hlast1; exact Option.some.inj hlast1
      rw [hp, List.drop_of_length_le (by omega)]
    show (p :: t.items.take (t.items.length - 1)).Perm t.items
    conv_rhs => rw [e]
    exact (List.perm_append_singleton p _).symm
  · intro k q hk
    have hk1 : (t.items.take (t.items.length - 1))[k]? = some q := hk
    rw [List.getElem?_take] at hk1
    split_ifs at hk1
    exact hidx k q hk1
  · intro j h0 hj
    have hlen : (t.items.take (t.items.length - 1)).length = t.items.length - 1 := by
      simp
    have hj1 : j < t.items.length - 1 := by
      have : j < (t.items.take (t.items.length - 1)).length := hj
      omega
    have hk : ∀ k, k < t.items.length - 1 →
        dialQueueImpl.key ⟨t.mem, t.items.take (t.items.length - 1)⟩ k = t.key k := by
      intro k hk
      simp only [dialQueueImpl.key, List.getElem?_take_of_lt hk]
    rw [hk j hj1, hk _ (by omega)]
    exact hheap j h0 hj1
  · simp [dialQueueImpl.Len]

theorem Removed.of_shuffled {t t1 t2 : dialQueueImpl} {p : Ptr} (h1 : Shuffled t t1)
    (h2 : Removed t1 t2 p) : Removed t t2 p :=
  ⟨h2.perm.trans h1.perm, fun q => (h2.prio q).trans (h1.prio q),
    fun q => (h2.addr q).trans (h1.addr q),
    fun q hq => (h2.out q (fun h => hq (h1.perm.mem_iff.mp h))).trans (h1.out q hq)⟩

theorem heap_Pop_spec {t : dialQueueImpl} (hidx : IdxOK t) (hheap : HeapTo t.key t.Len)
    (hlen : 0 < t.Len) :
    ∃ t1 p, heap.Pop t = some (t1, p) ∧ t.items[0]? = some p ∧ Removed t t1 p ∧
      IdxOK t1 ∧ HeapTo t1.key t1.Len ∧ t1.Len = t.Len - 1 := by
  obtain ⟨p, hp⟩ := get_of_lt hlen
  obtain ⟨t1, hsw, hsh, hidx1, hkey, hfr, -, hlast⟩ :=
    Swap_spec (t := t) (i := 0) (j := t.Len - 1) hlen (by omega) hidx
  have hexc : ExcDown t1.key (t.Len - 1) 0 := by
    refine ⟨?_, fun h => absurd h (by omega)⟩
    intro j h0 hj hpar
    rw [hkey]
    have := hheap j h0 (by omega)
    simp only [swapF]
    rw [if_neg hpar, if_neg (by omega), if_neg (by omega), if_neg (by omega)]
    exact this
  obtain ⟨t2, i2, hrun, hsh2, hidx2, hsf2, hheap2⟩ :=
    downLoop_heap (f := t.Len - 1) (Nat.le_add_right _ _) (by rw [hsh.len]; omega) hidx1 hexc
  have hl2 : t2.Len = t.Len := by rw [hsh2.len, hsh.len]
  have hlast2 : t2.items[t2.Len - 1]? = some p := by
    rw [hl2, hsf2 _ (Nat.le_refl _), hlast, hp]
  obtain ⟨t3, hpop, hrem, hidx3, hheap3, hl3⟩ :=
    Pop_spec hlast2 hidx2 (by rw [hl2]; exact hheap2)
  refine ⟨t3, p, ?_, hp, Removed.of_shuffled (hsh.comp hsh2) hrem, hidx3, hheap3,
    by rw [hl3, hl2]⟩
  simp only [heap.Pop, heap.down, hsw, hrun, Option.bind_eq_bind, Option.some_bind]
  exact hpop

theorem heap_Remove_spec {t : dialQueueImpl} {i : Nat} {p : Ptr} (hidx : IdxOK t)
    (hheap : HeapTo t.key t.Len) (hp : t.items[i]? = some p) :
    ∃ t1, heap.Remove t i = some (t1, p) ∧ Removed t t1 p ∧ IdxOK t1 ∧
      HeapTo t1.key t1.Len ∧ t1.Len = t.Len - 1 := by
  have hi : i < t.Len := by
    by_contra h
    rw [List.getElem?_eq_none (by unfold dialQueueImpl.Len at h; omega)] at hp
    cases hp
  by_cases hni : t.Len - 1 = i
  · obtain ⟨t1, hpop, hrem, hidx1, hheap1, hl1⟩ :=
      Pop_spec (t := t) (p := p) (by rw [hni]; exact hp) hidx (hheap.mono (by omega))
    refine ⟨t1, ?_, hrem, hidx1, hheap1, hl1⟩
    simp only [heap.Remove, hni, ne_eq, not_true_eq_false, if_false, Option.bind_eq_bind,
      Option.some_bind]
    exact hpop
  · obtain ⟨t1, hsw, hsh, hidx1, hkey, hfr, -, hlast⟩ :=
      Swap_spec (t := t) (i := i) (j := t.Len - 1) hi (by omega) hidx
    have hexc : ExcBoth t1.key (t.Len - 1) i := by
      constructor
      · intro j h0 hj hji hpar
        rw [hkey]
        have := hheap j h0 (by omega)
        simp only [swapF]
        rw [if_neg hpar, if_neg (by omega), if_neg hji, if_neg (by omega)]
        exact this
      · intro hi0 j h0 hj hpar
        rw [hkey]
        have h1 := hheap j h0 (by omega)
        have h2 := hheap i hi0 hi
        rw [hpar] at h1
        simp only [swapF]
        rw [if_neg (by omega), if_neg (by omega), if_neg (by omega), if_neg (by omega)]
        omega
    obtain ⟨t2, i2, hrun, hsh2, hidx2, hsf2, hres⟩ :=
      downLoop_spec (t.Len - 1) t1 i (t.Len - 1) (Nat.le_add_right _ _)
        (by rw [hsh.len]; omega) hidx1 hexc
    have hl2 : t2.Len = t.Len := by rw [hsh2.len, hsh.len]
    have hlast2 : t2.items[t.Len - 1]? = some p := by
      rw [hsf2 _ (Nat.le_refl _), hlast, hp]
    have hrem : heap.Remove t i =
        (if i2 > i then some t2 else heap.up t2 i).bind (fun h3 => h3.Pop) := by
      simp only [heap.Remove, heap.down, hsw, hrun, Option.bind_eq_bind, Option.some_bind,
        ne_eq, hni, not_false_eq_true, if_true]
      by_cases h : i2 > i <;> simp [h]
    rcases hres with ⟨e1, e2, hch⟩ | ⟨hlt2, hheap2⟩
    · subst e1; subst e2
      obtain ⟨t3, hup, hsh3, hidx3, hsf3, hheap3⟩ :=
        upLoop_spec i2 t2 i2 (t.Len - 1) (Nat.le_refl _) (by omega) (by rw [hl2]; omega) hidx2
          (hexc.excUp_of_children hch)
      have hl3 : t3.Len = t.Len := by rw [hsh3.len, hl2]
      have hlast3 : t3.items[t3.Len - 1]? = some p := by
        rw [hl3, hsf3 _ (Nat.le_refl _), hlast2]
      obtain ⟨t4, hpop, hrem4, hidx4, hheap4, hl4⟩ :=
        Pop_spec hlast3 hidx3 (by rw [hl3]; exact hheap3)
      refine ⟨t4, ?_, Removed.of_shuffled (hsh.comp hsh3) hrem4, hidx4, hheap4,
        by rw [hl4, hl3]⟩
      rw [hrem, if_neg (by omega)]
      show (heap.upLoop i2 t2 i2).bind _ = _
      rw [hup]
      exact hpop
    · obtain ⟨t4, hpop, hrem4, hidx4, hheap4, hl4⟩ :=
        Pop_spec (t := t2) (p := p) (by rw [hl2]; exact hlast2) hidx2
          (by rw [hl2]; exact hheap2)
      refine ⟨t4, ?_, Removed.of_shuffled (hsh.comp hsh2) hrem4, hidx4, hheap4,
        by rw [hl4, hl2]⟩
      rw [hrem, if_pos hlt2]
      exact hpop

theorem heap_Fix_spec {t : dialQueueImpl} {i : Nat} (hidx : IdxOK t) (hi : i < t.Len)
    (hexc : ExcBoth t.key t.Len i) :
    ∃ t1, heap.Fix t i = some t1 ∧ Shuffled t t1 ∧ IdxOK t1 ∧ HeapTo t1.key t1.Len := by
  obtain ⟨t2, i2, hrun, hsh2, hidx2, -, hres⟩ :=
    downLoop_spec t.Len t i t.Len (Nat.le_add_right _ _) (Nat.le_refl _) hidx hexc
  have hfix : heap.Fix t i = if i2 > i then some t2 else heap.up t2 i := by
    simp only [heap.Fix, heap.down, hrun, Option.bind_eq_bind, Option.some_bind]
    by_cases h : i2 > i <;> simp [h]
  rcases hres with ⟨e1, e2, hch⟩ | ⟨hlt2, hheap2⟩
  · subst e1; subst e2
    obtain ⟨t3, hup, hsh3, hidx3, -, hheap3⟩ :=
      upLoop_spec i2 t2 i2 t2.Len (Nat.le_refl _) hi (Nat.le_refl _) hidx2 (hexc.excUp_of_children hch)
    refine ⟨t3, ?_, hsh3, hidx3, by rw [hsh3.len]; exact hheap3⟩
    rw [hfix, if_neg (by omega)]
    exact hup
  · refine ⟨t2, ?_, hsh2, hidx2, by rw [hsh2.len]; exact hheap2⟩
    rw [hfix, if_pos hlt2]

theorem heap_Push_spec {t : dialQueueImpl} {x : Ptr} (hidx : IdxOK t)
    (hheap : HeapTo t.key t.Len) (hx : x ∉ t.items) :
    ∃ t1, heap.Push t x = some t1 ∧ t1.items.Perm (x :: t.items) ∧
      (∀ q, (t1.mem q).priority = (t.mem q).priority) ∧
      (∀ q, (t1.mem q).addrInfo = (t.mem q).addrInfo) ∧
      (∀ q, q ≠ x → q ∉ t.items → t1.mem q = t.mem q) ∧
      IdxOK t1 ∧ HeapTo t1.key t1.Len := by
  have hlen : (t.Push x).Len = t.Len + 1 := by simp [dialQueueImpl.Push, dialQueueImpl.Len]
  have hget : ∀ k, k < t.Len → (t.Push x).items[k]? = t.items[k]? := by
    intro k hk
    simp only [dialQueueImpl.Push]
    exact List.getElem?_append_left hk
  have hlast : (t.Push x).items[t.Len]? = some x := by
    simp only [dialQueueImpl.Push, dialQueueImpl.Len]
    simp
  have hidx1 : IdxOK (t.Push x) := by
    intro k q hk
    by_cases hkl : k < t.Len
    · rw [hget k hkl] at hk
      have hqx : q ≠ x := fun e => hx (e ▸ List.getElem?_mem hk)
      simp only [dialQueueImpl.Push, Function.update_apply, hqx, if_false]
      exact hidx k q hk
    · have hk2 : k < (t.Push x).Len := by
        by_contra h
        rw [List.getElem?_eq_none (by unfold dialQueueImpl.Len at h; omega)] at hk
        cases hk
      have hkeq : k = t.Len := by omega
      subst hkeq
      rw [hlast] at hk
      cases hk
      simp [dialQueueImpl.Push, dialQueueImpl.Len]
  have hkey : ∀ k, k < t.Len → (t.Push x).key k = t.key k := by
    intro k hk
    obtain ⟨q, hq⟩ := get_of_lt hk
    have hqx : q ≠ x := fun e => hx (e ▸ List.getElem?_mem hq)
    rw [key_of_get hq, key_of_get ((hget k hk).trans hq)]
    simp [dialQueueImpl.Push, Function.update_apply, hqx]
  have hexc : ExcUp (t.Push x).key (t.Len + 1) t.Len := by
    refine ⟨?_, fun _ j _ hj hpar => absurd hpar (by omega)⟩
    intro j h0 hj hne
    rw [hkey j (by omega), hkey _ (by omega)]
    exact hheap j h0 (by omega)
  obtain ⟨t1, hup, hsh, hidx2, -, hheap2⟩ :=
    upLoop_spec t.Len (t.Push x) t.Len (t.Len + 1) (Nat.le_refl _) (by omega)
      (by rw [hlen]) hidx1 hexc
  refine ⟨t1, ?_, ?_, ?_, ?_, ?_, hidx2, by rw [hsh.len, hlen]; exact hheap2⟩
  · simp only [heap.Push, heap.up, hlen, Nat.add_sub_cancel]
    exact hup
  · refine hsh.perm.trans ?_
    simp only [dialQueueImpl.Push]
    exact List.perm_append_singleton x t.items
  · intro q
    rw [hsh.prio q]
    simp only [dialQueueImpl.Push, Function.update_apply]
    split_ifs with h
    · subst h; rfl
    · rfl
  · intro q
    rw [hsh.addr q]
    simp only [dialQueueImpl.Push, Function.update_apply]
    split_ifs with h
    · subst h; rfl
    · rfl
  · intro q hqx hq
    rw [hsh.out q (by simp [dialQueueImpl.Push, hqx, hq])]
    simp [dialQueueImpl.Push, Function.update_apply, hqx]

/-! ## The map -/

theorem TaskMap.delete_cons_eq (m : TaskMap) (k : PeerID) (v : Ptr) :
    TaskMap.delete ((k, v) :: m) k = TaskMap.delete m k := by
  simp [TaskMap.delete]

theorem TaskMap.delete_cons_ne (m : TaskMap) {k k1 : PeerID} (v : Ptr) (h : k1 ≠ k) :
    TaskMap.delete ((k1, v) :: m) k = (k1, v) :: TaskMap.delete m k := by
  simp [TaskMap.delete, h]

theorem TaskMap.get_delete_self (m : TaskMap) (k : PeerID) : (m.delete k).get k = none := by
  induction m with
  | nil => rfl
  | cons e m ih =>
    obtain ⟨k1, v⟩ := e
    by_cases h : k1 = k
    · subst h
      rw [TaskMap.delete_cons_eq]; exact ih
    · rw [TaskMap.delete_cons_ne m v h]
      simp only [TaskMap.get, if_neg h]
      exact ih

theorem TaskMap.get_delete_ne (m : TaskMap) {k k2 : PeerID} (hne : k2 ≠ k) :
    (m.delete k).get k2 = m.get k2 := by
  induction m with
  | nil => rfl
  | cons e m ih =>
    obtain ⟨k1, v⟩ := e
    by_cases h : k1 = k
    · have h2 : k1 ≠ k2 := fun e => hne (e ▸ h)
      subst h
      rw [TaskMap.delete_cons_eq]
      simp only [TaskMap.get, if_neg h2]
      exact ih
    · rw [TaskMap.delete_cons_ne m v h]
      by_cases h3 : k1 = k2
      · simp only [TaskMap.get, if_pos h3]
      · simp only [TaskMap.get, if_neg h3]
        exact ih

theorem TaskMap.get_set_self (m : TaskMap) (k : PeerID) (v : Ptr) : (m.set k v).get k = some v := by
  simp [TaskMap.set, TaskMap.get]

theorem TaskMap.get_set_ne (m : TaskMap) {k k2 : PeerID} (v : Ptr) (hne : k2 ≠ k) :
    (m.set k v).get k2 = m.get k2 := by
  simp only [TaskMap.set, TaskMap.get, if_neg (Ne.symm hne)]
  exact TaskMap.get_delete_ne m hne

theorem TaskMap.get_eq_none_iff (m : TaskMap) (k : PeerID) :
    m.get k = none ↔ k ∉ m.map Prod.fst := by
  induction m with
  | nil => simp [TaskMap.get]
  | cons e m ih =>
    obtain ⟨k1, v⟩ := e
    by_cases h : k1 = k
    · simp [TaskMap.get, h]
    · simp only [TaskMap.get, if_neg h, ih, List.map_cons, List.mem_cons, not_or]
      exact ⟨fun h2 => ⟨fun e => h e.symm, h2⟩, fun h2 => h2.2⟩

theorem TaskMap.get_of_mem {m : TaskMap} (hk : (m.map Prod.fst).Nodup) {k : PeerID} {v : Ptr}
    (h : (k, v) ∈ m) : m.get k = some v := by
  induction m with
  | nil => cases h
  | cons e m ih =>
    obtain ⟨k1, v1⟩ := e
    rw [List.map_cons, List.nodup_cons] at hk
    rcases List.mem_cons.mp h with e | hm
    · cases e
      simp [TaskMap.get]
    · have hne : k1 ≠ k := by
        intro e
        subst e
        exact hk.1 (List.mem_map.mpr ⟨(k1, v), hm, rfl⟩)
      simp only [TaskMap.get, if_neg hne]
      exact ih hk.2 hm

theorem TaskMap.mem_of_get {m : TaskMap} {k : PeerID} {v : Ptr} (h : m.get k = some v) :
    (k, v) ∈ m := by
  induction m with
  | nil => cases h
  | cons e m ih =>
    obtain ⟨k1, v1⟩ := e
    by_cases hk : k1 = k
    · simp only [TaskMap.get, if_pos hk] at h
      cases h
      subst hk
      exact List.mem_cons_self _ _
    · simp only [TaskMap.get, if_neg hk] at h
      exact List.mem_cons_of_mem _ (ih h)

theorem TaskMap.keys_delete {m : TaskMap} (hk : (m.map Prod.fst).Nodup) (k : PeerID) :
    ((m.delete k).map Prod.fst).Nodup :=
  hk.sublist ((List.filter_sublist m).map Prod.fst)

theorem TaskMap.keys_set {m : TaskMap} (hk : (m.map Prod.fst).Nodup) (k : PeerID) (v : Ptr) :
    ((m.set k v).map Prod.fst).Nodup := by
  simp only [TaskMap.set, List.map_cons, List.nodup_cons]
  exact ⟨(TaskMap.get_eq_none_iff _ _).mp (TaskMap.get_delete_self m k), TaskMap.keys_delete hk k⟩

/-! ## Well-formedness is kept by every operation -/

theorem IdxOK.slot {t : dialQueueImpl} (h : IdxOK t) {p : Ptr} (hp : p ∈ t.items) :
    t.items[(t.mem p).index]? = some p := by
  obtain ⟨i, hi⟩ := List.mem_iff_getElem?.mp hp
  rw [h i p hi]
  exact hi

theorem WF.init : WF NewDialQueue := by
  refine ⟨?_, ?_, ?_, ?_, ?_, ?_⟩
  · intro i p h; simp [NewDialQueue] at h
  · intro j _ hj; simp [NewDialQueue, dialQueueImpl.Len] at hj
  · intro p h; simp [NewDialQueue] at h
  · simp [NewDialQueue]
  · intro id p h; simp [NewDialQueue, TaskMap.get] at h
  · intro p h; simp [NewDialQueue] at h

theorem WF.peer_inj {d : DialQueue} (h : WF d) {p q : Ptr} (hp : p ∈ d.heap.items)
    (hq : q ∈ d.heap.items) (e : (d.heap.mem p).addrInfo.ID = (d.heap.mem q).addrInfo.ID) :
    p = q := by
  have h1 := h.heapMap p hp
  have h2 := h.heapMap q hq
  rw [e, h2] at h1
  exact (Option.some.inj h1).symm

/-- Removing the task `p` from heap and map keeps the state well-formed. -/
theorem WF.removed {d : DialQueue} (h : WF d) {t1 : dialQueueImpl} {p : Ptr}
    (hrem : Removed d.heap t1 p) (hidx : IdxOK t1) (hord : HeapTo t1.key t1.Len) :
    WF { d with heap := t1, tasks := d.tasks.delete (d.heap.mem p).addrInfo.ID } := by
  have hp : p ∈ d.heap.items := hrem.perm.mem_iff.mp (List.mem_cons_self _ _)
  have hnd : (p :: t1.items).Nodup := hrem.perm.nodup_iff.mpr h.idx.nodup
  have hsub : ∀ q, q ∈ t1.items → q ∈ d.heap.items ∧ q ≠ p := by
    intro q hq
    refine ⟨hrem.perm.mem_iff.mp (List.mem_cons_of_mem _ hq), ?_⟩
    intro e; subst e
    exact (List.nodup_cons.mp hnd).1 hq
  refine ⟨hidx, hord, ?_, TaskMap.keys_delete h.keys _, ?_, ?_⟩
  · intro q hq; exact h.fresh q (hsub q hq).1
  · intro id q hget
    have hne : id ≠ (d.heap.mem p).addrInfo.ID := by
      intro e
      have hget1 : (d.tasks.delete (d.heap.mem p).addrInfo.ID).get id = some q := hget
      rw [e, TaskMap.get_delete_self] at hget1
      cases hget1
    have hget1 : (d.tasks.delete (d.heap.mem p).addrInfo.ID).get id = some q := hget
    rw [TaskMap.get_delete_ne _ hne] at hget1
    obtain ⟨hq, hid⟩ := h.mapHeap id q hget1
    have hqp : q ≠ p := by
      intro e; subst e; exact hne hid.symm
    refine ⟨?_, ?_⟩
    · rcases List.mem_cons.mp (hrem.perm.mem_iff.mpr hq) with e | hm
      · exact absurd e hqp
      · exact hm
    · show (t1.mem q).addrInfo.ID = id
      rw [hrem.addr q]; exact hid
  · intro q hq
    obtain ⟨hq1, hqp⟩ := hsub q hq
    show (d.tasks.delete (d.heap.mem p).addrInfo.ID).get (t1.mem q).addrInfo.ID = some q
    rw [hrem.addr q]
    have hne : (d.heap.mem q).addrInfo.ID ≠ (d.heap.mem p).addrInfo.ID :=
      fun e => hqp (h.peer_inj hq1 hp e)
    rw [TaskMap.get_delete_ne _ hne]
    exact h.heapMap q hq1

theorem popTaskImpl_empty {d : DialQueue} (h : d.heap.Len = 0) : popTaskImpl d = some (d, none) := by
  simp [popTaskImpl, h]

theorem popTaskImpl_spec {d : DialQueue} (h : WF d) (hlen : d.heap.Len ≠ 0) :
    ∃ d1 p, popTaskImpl d = some (d1, some p) ∧ d.heap.items[0]? = some p ∧
      Removed d.heap d1.heap p ∧ WF d1 ∧
      d1.tasks = d.tasks.delete (d.heap.mem p).addrInfo.ID ∧
      d1.updateCh = d.updateCh ∧ d1.closeCh = d.closeCh ∧ d1.next = d.next ∧
      d1.heap.Len = d.heap.Len - 1 := by
  obtain ⟨t1, p, hpop, h0, hrem, hidx, hord, hl⟩ :=
    heap_Pop_spec h.idx h.ord (Nat.pos_of_ne_zero hlen)
  refine ⟨{ d with heap := t1, tasks := d.tasks.delete (d.heap.mem p).addrInfo.ID }, p, ?_,
    h0, hrem, h.removed hrem hidx hord, rfl, rfl, rfl, rfl, hl⟩
  simp only [popTaskImpl, hlen, ne_eq, not_false_eq_true, if_true, hpop, Option.bind_eq_bind,
    Option.some_bind, hrem.addr p]

theorem DeleteTask_absent {d : DialQueue} {id : PeerID} (h : d.tasks.get id = none) :
    DeleteTask d id = some d := by
  simp [DeleteTask, h]

theorem DeleteTask_spec {d : DialQueue} (h : WF d) {id : PeerID} {p : Ptr}
    (hget : d.tasks.get id = some p) :
    ∃ d1, DeleteTask d id = some d1 ∧ Removed d.heap d1.heap p ∧ WF d1 ∧
      d1.tasks = d.tasks.delete id ∧
      d1.updateCh = d.updateCh ∧ d1.closeCh = d.closeCh ∧ d1.next = d.next := by
  obtain ⟨hp, hid⟩ := h.mapHeap id p hget
  obtain ⟨t1, hrm, hrem, hidx, hord, -⟩ := heap_Remove_spec h.idx h.ord (h.idx.slot hp)
  have hinv := h.removed hrem hidx hord
  rw [hid] at hinv
  refine ⟨{ d with heap := t1, tasks := d.tasks.delete id }, ?_, hrem, hinv, rfl, rfl, rfl, rfl⟩
  simp only [DeleteTask, hget, hrm, Option.bind_eq_bind, Option.some_bind]

theorem addTaskImpl_new {d : DialQueue} (h : WF d) {a : AddrInfo} (p : Nat)
    (hget : d.tasks.get a.ID = none) :
    ∃ d1, addTaskImpl d a p = some (d1, true) ∧ WF d1 ∧
      d1.tasks = d.tasks.set a.ID d.next ∧
      d1.heap.items.Perm (d.next :: d.heap.items) ∧
      (d1.heap.mem d.next).addrInfo = a ∧ (d1.heap.mem d.next).priority = p ∧
      (∀ q, q ≠ d.next → (d1.heap.mem q).priority = (d.heap.mem q).priority ∧
        (d1.heap.mem q).addrInfo = (d.heap.mem q).addrInfo) ∧
      d1.updateCh = d.updateCh ∧ d1.closeCh = d.closeCh ∧ d1.next = d.next + 1 := by
  have hfresh : d.next ∉ d.heap.items := fun hm => Nat.lt_irrefl _ (h.fresh _ hm)
  have hne : ∀ q, q ∈ d.heap.items → q ≠ d.next := fun q hq e => hfresh (e ▸ hq)
  have hidx0 : IdxOK ⟨Function.update d.heap.mem d.next ⟨0, a, p⟩, d.heap.items⟩ := by
    intro k q hk
    have hk1 : d.heap.items[k]? = some q := hk
    have := hne q (List.getElem?_mem hk1)
    simp only [Function.update_apply, this, if_false]
    exact h.idx k q hk1
  have hkey0 : dialQueueImpl.key ⟨Function.update d.heap.mem d.next ⟨0, a, p⟩, d.heap.items⟩
      = d.heap.key := by
    funext k
    simp only [dialQueueImpl.key]
    cases hk : d.heap.items[k]? with
    | none => rfl
    | some q =>
      have := hne q (List.getElem?_mem hk)
      simp only [Function.update_apply, this, if_false]
  have hord0 : HeapTo (dialQueueImpl.key ⟨Function.update d.heap.mem d.next ⟨0, a, p⟩,
      d.heap.items⟩) (dialQueueImpl.Len ⟨Function.update d.heap.mem d.next ⟨0, a, p⟩,
      d.heap.items⟩) := by
    rw [hkey0]; exact h.ord
  obtain ⟨t1, hpush, hperm, hprio, haddr, hout, hidx1, hord1⟩ :=
    heap_Push_spec hidx0 hord0 (x := d.next) hfresh
  have hin : ∀ q, q ∈ t1.items ↔ q = d.next ∨ q ∈ d.heap.items := by
    intro q; rw [hperm.mem_iff]; exact List.mem_cons
  have haddr1 : ∀ q, q ≠ d.next → (t1.mem q).addrInfo = (d.heap.mem q).addrInfo := by
    intro q hq; rw [haddr q]; simp only [Function.update_apply, hq, if_false]
  have hprio1 : ∀ q, q ≠ d.next → (t1.mem q).priority = (d.heap.mem q).priority := by
    intro q hq; rw [hprio q]; simp only [Function.update_apply, hq, if_false]
  have haddrx : (t1.mem d.next).addrInfo = a := by
    rw [haddr]; simp
  have hpriox : (t1.mem d.next).priority = p := by
    rw [hprio]; simp
  refine ⟨{ d with heap := t1, tasks := d.tasks.set a.ID d.next, next := d.next + 1 }, ?_, ?_,
    rfl, hperm, haddrx, hpriox, fun q hq => ⟨hprio1 q hq, haddr1 q hq⟩, rfl, rfl, rfl⟩
  · simp only [addTaskImpl, hget, hpush, Option.bind_eq_bind, Option.some_bind]
  · refine ⟨hidx1, hord1, ?_, TaskMap.keys_set h.keys _ _, ?_, ?_⟩
    · intro q hq
      show q < d.next + 1
      rcases (hin q).mp hq with e | hm
      · subst e; exact Nat.lt_succ_self _
      · exact Nat.lt_succ_of_lt (h.fresh q hm)
    · intro id q hg
      have hg1 : (d.tasks.set a.ID d.next).get id = some q := hg
      show q ∈ t1.items ∧ (t1.mem q).addrInfo.ID = id
      by_cases hid : id = a.ID
      · subst hid
        rw [TaskMap.get_set_self] at hg1
        cases hg1
        exact ⟨(hin _).mpr (Or.inl rfl), by rw [haddrx]⟩
      · rw [TaskMap.get_set_ne _ _ hid] at hg1
        obtain ⟨hq, hqid⟩ := h.mapHeap id q hg1
        exact ⟨(hin _).mpr (Or.inr hq), by rw [haddr1 q (hne q hq)]; exact hqid⟩
    · intro q hq
      show (d.tasks.set a.ID d.next).get (t1.mem q).addrInfo.ID = some q
      rcases (hin q).mp hq with e | hm
      · subst e
        rw [haddrx]; exact TaskMap.get_set_self _ _ _
      · rw [haddr1 q (hne q hm)]
        have hg := h.heapMap q hm
        have hid : (d.heap.mem q).addrInfo.ID ≠ a.ID := by
          intro e; rw [e, hget] at hg; cases hg
        rw [TaskMap.get_set_ne _ _ hid]
        exact hg

theorem addTaskImpl_keep {d : DialQueue} {a : AddrInfo} {p : Nat} {item : Ptr}
    (hget : d.tasks.get a.ID = some item) (hge : (d.heap.mem item).priority ≤ p) :
    addTaskImpl d a p = some (d, false) := by
  have : ¬ (d.heap.mem item).priority > p := by omega
  simp only [addTaskImpl, hget, this, if_false]

theorem addTaskImpl_upgrade {d : DialQueue} (h : WF d) {a : AddrInfo} {p : Nat} {item : Ptr}
    (hget : d.tasks.get a.ID = some item) (hlt : p < (d.heap.mem item).priority) :
    ∃ d1, addTaskImpl d a p = some (d1, false) ∧ WF d1 ∧ d1.tasks = d.tasks ∧
      d1.heap.items.Perm d.heap.items ∧
      (d1.heap.mem item).addrInfo = a ∧ (d1.heap.mem item).priority = p ∧
      (∀ q, q ≠ item → (d1.heap.mem q).priority = (d.heap.mem q).priority ∧
        (d1.heap.mem q).addrInfo = (d.heap.mem q).addrInfo) ∧
      d1.updateCh = d.updateCh ∧ d1.closeCh = d.closeCh ∧ d1.next = d.next := by
  obtain ⟨hitem, hid⟩ := h.mapHeap _ _ hget
  have hslot := h.idx.slot hitem
  have hi : (d.heap.mem item).index < d.heap.Len := by
    by_contra hc
    rw [List.getElem?_eq_none (by unfold dialQueueImpl.Len at hc; omega)] at hslot
    cases hslot
  have hidx0 : IdxOK ⟨Function.update d.heap.mem item
      { d.heap.mem item with addrInfo := a, priority := p }, d.heap.items⟩ := by
    intro k q hk
    have hk1 : d.heap.items[k]? = some q := hk
    have := h.idx k q hk1
    simp only [Function.update_apply]
    split_ifs with e
    · subst e; exact this
    · exact this
  have hkey0 : ∀ k, k ≠ (d.heap.mem item).index →
      dialQueueImpl.key ⟨Function.update d.heap.mem item
        { d.heap.mem item with addrInfo := a, priority := p }, d.heap.items⟩ k = d.heap.key k := by
    intro k hk
    simp only [dialQueueImpl.key]
    cases hq : d.heap.items[k]? with
    | none => rfl
    | some q =>
      have : q ≠ item := fun e => hk (h.idx.inj (e ▸ hq) hslot)
      simp only [Function.update_apply, this, if_false]
  have hexc : ExcBoth (dialQueueImpl.key ⟨Function.update d.heap.mem item
      { d.heap.mem item with addrInfo := a, priority := p }, d.heap.items⟩)
      (dialQueueImpl.Len ⟨Function.update d.heap.mem item
        { d.heap.mem item with addrInfo := a, priority := p }, d.heap.items⟩)
      (d.heap.mem item).index := by
    constructor
    · intro j h0 hj hji hpar
      rw [hkey0 j hji, hkey0 _ hpar]
      exact h.ord j h0 hj
    · intro hi0 j h0 hj hpar
      rw [hkey0 j (by omega), hkey0 _ (by omega)]
      have h1 := h.ord j h0 hj
      have h2 := h.ord _ hi0 hi
      rw [hpar] at h1
      omega
  obtain ⟨t1, hfix, hsh, hidx1, hord1⟩ :=
    heap_Fix_spec (i := (d.heap.mem item).index) hidx0 hi hexc
  have haddr1 : ∀ q, q ≠ item → (t1.mem q).addrInfo = (d.heap.mem q).addrInfo := by
    intro q hq; rw [hsh.addr q]; simp only [Function.update_apply, hq, if_false]
  have hprio1 : ∀ q, q ≠ item → (t1.mem q).priority = (d.heap.mem q).priority := by
    intro q hq; rw [hsh.prio q]; simp only [Function.update_apply, hq, if_false]
  have haddrx : (t1.mem item).addrInfo = a := by
    rw [hsh.addr]; simp
  have hpriox : (t1.mem item).priority = p := by
    rw [hsh.prio]; simp
  have hperm : t1.items.Perm d.heap.items := hsh.perm
  refine ⟨{ d with heap := t1 }, ?_, ?_, rfl, hperm, haddrx, hpriox,
    fun q hq => ⟨hprio1 q hq, haddr1 q hq⟩, rfl, rfl, rfl⟩
  · have hgt : (d.heap.mem item).priority > p := hlt
    simp only [addTaskImpl, hget, hgt, if_true, Function.update_same, Option.bind_eq_bind]
    rw [hfix]
    rfl
  · refine ⟨hidx1, hord1, ?_, h.keys, ?_, ?_⟩
    · intro q hq; exact h.fresh q (hperm.mem_iff.mp hq)
    · intro id q hg
      obtain ⟨hq, hqid⟩ := h.mapHeap id q hg
      refine ⟨hperm.mem_iff.mpr hq, ?_⟩
      show (t1.mem q).addrInfo.ID = id
      by_cases e : q = item
      · subst e; rw [haddrx, ← hqid, hid]
      · rw [haddr1 q e]; exact hqid
    · intro q hq
      have hq1 := hperm.mem_iff.mp hq
      show d.tasks.get (t1.mem q).addrInfo.ID = some q
      by_cases e : q = item
      · subst e; rw [haddrx]; exact hget
      · rw [haddr1 q e]; exact h.heapMap q hq1

/-- From a well-formed state `addTaskImpl` never faults and leaves a well-formed
state; it returns `true` exactly for a peer without a pending task. -/
theorem addTaskImpl_total {d : DialQueue} (h : WF d) (a : AddrInfo) (p : Nat) :
    ∃ d1, addTaskImpl d a p = some (d1, (d.tasks.get a.ID).isNone) ∧ WF d1 ∧
      d1.updateCh = d.updateCh ∧ d1.closeCh = d.closeCh := by
  cases hget : d.tasks.get a.ID with
  | none =>
    obtain ⟨d1, h1, h2, -, -, -, -, -, h3, h4, -⟩ := addTaskImpl_new h p hget
    exact ⟨d1, h1, h2, h3, h4⟩
  | some item =>
    by_cases hlt : p < (d.heap.mem item).priority
    · obtain ⟨d1, h1, h2, -, -, -, -, -, h3, h4, -⟩ := addTaskImpl_upgrade h hget hlt
      exact ⟨d1, h1, h2, h3, h4⟩
    · exact ⟨d, addTaskImpl_keep hget (by omega), h, rfl, rfl⟩

theorem WF.congr {d d1 : DialQueue} (h : WF d) (hh : d1.heap = d.heap) (ht : d1.tasks = d.tasks)
    (hn : d1.next = d.next) : WF d1 := by
  refine ⟨?_, ?_, ?_, ?_, ?_, ?_⟩
  · rw [hh]; exact h.idx
  · rw [hh]; exact h.ord
  · rw [hh, hn]; exact h.fresh
  · rw [ht]; exact h.keys
  · rw [hh, ht]; exact h.mapHeap
  · rw [hh, ht]; exact h.heapMap

/-- What `AddTask` does after `addTaskImpl` touches only the signal count. -/
theorem AddTask_queue {d : DialQueue} {a : AddrInfo} {p : Nat} {c : Bool} {o : Outcome}
    (h : AddTask d a p c = some o) :
    ∃ d1 b, addTaskImpl d a p = some (d1, b) ∧ o.queue.heap = d1.heap ∧
      o.queue.tasks = d1.tasks ∧ o.queue.next = d1.next ∧ o.queue.closeCh = d1.closeCh := by
  unfold AddTask at h
  cases hr : addTaskImpl d a p with
  | none => rw [hr] at h; cases h
  | some r =>
    obtain ⟨d1, b⟩ := r
    rw [hr] at h
    refine ⟨d1, b, rfl, ?_⟩
    simp only [Option.bind_eq_bind, Option.some_bind] at h
    split_ifs at h <;> cases h <;> exact ⟨rfl, rfl, rfl, rfl⟩

theorem WF.of_reachable {d : DialQueue} (h : Reachable d) : WF d := by
  induction h with
  | init => exact WF.init
  | add a p c _ hadd ih =>
    obtain ⟨d1, b, him, hh, ht, hn, -⟩ := AddTask_queue hadd
    obtain ⟨d2, h2, hwf, -, -⟩ := addTaskImpl_total ih a p
    rw [him] at h2
    cases h2
    exact hwf.congr hh ht hn
  | @del d0 d1 id _ hdel ih =>
    cases hget : d0.tasks.get id with
    | none =>
      rw [DeleteTask_absent hget] at hdel
      cases hdel; exact ih
    | some p =>
      obtain ⟨d2, h2, -, hwf, -⟩ := DeleteTask_spec ih hget
      rw [hdel] at h2
      cases h2; exact hwf
  | @pop d0 d1 t _ hpop ih =>
    by_cases hlen : d0.heap.Len = 0
    · rw [popTaskImpl_empty hlen] at hpop
      cases hpop; exact ih
    · obtain ⟨d2, p, h2, -, -, hwf, -⟩ := popTaskImpl_spec ih hlen
      rw [hpop] at h2
      cases h2; exact hwf
  | close _ hc ih =>
    unfold Close at hc
    split_ifs at hc
    cases hc
    exact ih.congr rfl rfl rfl
  | recv _ _ ih => exact ih.congr rfl rfl rfl
  | send _ _ ih => exact ih.congr rfl rfl rfl

/-! ## Reachable states -/

theorem reachable_addAll : ∀ (l : List (AddrInfo × Nat × Bool)) (d d1 : DialQueue),
    Reachable d → addAll d l = some d1 → Reachable d1 := by
  intro l
  induction l with
  | nil =>
    intro d d1 h e
    simp only [addAll] at e
    cases e; exact h
  | cons x l ih =>
    intro d d1 h e
    obtain ⟨a, p, c⟩ := x
    simp only [addAll, Option.bind_eq_bind] at e
    cases ho : AddTask d a p c with
    | none => rw [ho] at e; cases e
    | some o =>
      rw [ho] at e
      exact ih o.queue d1 (Reachable.add a p c h ho) e

/-- In an ordered heap the root is at most every slot. -/
theorem HeapTo.root_le {a : Nat → Nat} {n : Nat} (h : HeapTo a n) :
    ∀ k, k < n → a 0 ≤ a k := by
  intro k
  induction k using Nat.strong_induction_on with
  | _ k ih =>
    intro hk
    by_cases h0 : k = 0
    · subst h0; exact Nat.le_refl _
    · have h1 := h k (by omega) hk
      have h2 := ih ((k - 1) / 2) (by omega) (by omega)
      omega

theorem WF.root_min {d : DialQueue} (h : WF d) {p : Ptr} (hp : d.heap.items[0]? = some p) :
    ∀ q, q ∈ d.heap.items → (d.heap.mem p).priority ≤ (d.heap.mem q).priority := by
  intro q hq
  obtain ⟨k, hk⟩ := List.mem_iff_getElem?.mp hq
  have hkl : k < d.heap.Len := by
    by_contra hc
    rw [List.getElem?_eq_none (by unfold dialQueueImpl.Len at hc; omega)] at hk
    cases hk
  have := h.ord.root_le k hkl
  rw [key_of_get hp, key_of_get hk] at this
  exact this

theorem popTaskImpl_nil {d d1 : DialQueue} (h : popTaskImpl d = some (d1, none)) :
    d.heap.Len = 0 ∧ d1 = d := by
  by_cases hlen : d.heap.Len = 0
  · rw [popTaskImpl_empty hlen] at h
    cases h; exact ⟨hlen, rfl⟩
  · simp only [popTaskImpl, hlen, ne_eq, not_false_eq_true, if_true, Option.bind_eq_bind] at h
    cases hp : heap.Pop d.heap with
    | none => rw [hp] at h; cases h
    | some r => rw [hp] at h; cases h

/-- A task returned by `PopTask` is the one `popTaskImpl` returns after one
signal is taken out of the buffer. -/
theorem PopTaskLoop_task : ∀ (f k : Nat) (d : DialQueue) (pick : Nat → Bool) (d2 : DialQueue)
    (t : Ptr), PopTaskLoop f k d pick = some (.returned d2 (some t)) →
    popTaskImpl { d with updateCh := d.updateCh - 1 } = some (d2, some t) := by
  intro f
  induction f with
  | zero => intro k d pick d2 t h; simp [PopTaskLoop] at h
  | succ f ih =>
    intro k d pick d2 t h
    simp only [PopTaskLoop] at h
    split_ifs at h with hc1 hc2
    · cases hr : popTaskImpl { d with updateCh := d.updateCh - 1 } with
      | none => rw [hr] at h; cases h
      | some r =>
        obtain ⟨d3, ot⟩ := r
        rw [hr] at h
        cases ot with
        | some task =>
          simp only [Option.bind_eq_bind, Option.some_bind] at h
          cases h; rfl
        | none =>
          simp only [Option.bind_eq_bind, Option.some_bind] at h
          have h3 := ih _ _ _ _ _ h
          obtain ⟨hlen, e⟩ := popTaskImpl_nil hr
          subst e
          rw [popTaskImpl_empty (by exact hlen)] at h3
          cases h3
    · cases h
    · cases h

/-- More fuel than there are buffered signals never changes the result of the
`PopTask` loop. -/
theorem PopTaskLoop_fuel : ∀ (f g k : Nat) (d : DialQueue) (pick : Nat → Bool),
    d.updateCh < f → d.updateCh < g → PopTaskLoop f k d pick = PopTaskLoop g k d pick := by
  intro f
  induction f with
  | zero => intro g k d pick hf _; omega
  | succ f ih =>
    intro g k d pick hf hg
    cases g with
    | zero => omega
    | succ g =>
      simp only [PopTaskLoop]
      split_ifs with hc1 hc2
      · cases hr : popTaskImpl { d with updateCh := d.updateCh - 1 } with
        | none => rfl
        | some r =>
          obtain ⟨d3, ot⟩ := r
          cases ot with
          | some task => rfl
          | none =>
            simp only [Option.bind_eq_bind, Option.some_bind]
            obtain ⟨-, e⟩ := popTaskImpl_nil hr
            subst e
            have hpos : 0 < d.updateCh := by
              simp only [Bool.and_eq_true, decide_eq_true_eq] at hc1
              exact hc1.1
            exact ih g (k + 1) _ pick (by show d.updateCh - 1 < f; omega)
              (by show d.updateCh - 1 < g; omega)
      · rfl
      · rfl

/-! ## The claims -/

/-- C1: in every state reachable from `NewDialQueue` by `AddTask`,
`DeleteTask` and `popTaskImpl` the heap is a min-heap: the priority in slot `i`
is at most the priorities in the slots `2i+1` and `2i+2` whenever those slots
exist. -/
theorem heap_invariant_reachable (d : DialQueue) (h : Reachable d) (i : Nat) :
    (2 * i + 1 < d.heap.Len → d.heap.key i ≤ d.heap.key (2 * i + 1)) ∧
    (2 * i + 2 < d.heap.Len → d.heap.key i ≤ d.heap.key (2 * i + 2)) := by
  have hord := (WF.of_reachable h).ord
  constructor
  · intro hl
    have := hord (2 * i + 1) (by omega) hl
    have e : (2 * i + 1 - 1) / 2 = i := by omega
    rw [e] at this; exact this
  · intro hl
    have := hord (2 * i + 2) (by omega) hl
    have e : (2 * i + 2 - 1) / 2 = i := by omega
    rw [e] at this; exact this

/-- Witness of C1 on the queue holding the priorities 5, 1, 3: the root slot
holds 1, its children 5 and 3. -/
theorem heap_invariant_reachable_witness :
    Reachable queue513 ∧ queue513.heap.prios = [1, 5, 3] ∧
      ((2 * 0 + 1 < queue513.heap.Len → queue513.heap.key 0 ≤ queue513.heap.key (2 * 0 + 1)) ∧
       (2 * 0 + 2 < queue513.heap.Len → queue513.heap.key 0 ≤ queue513.heap.key (2 * 0 + 2))) :=
  ⟨reachable_addAll tasks513 _ _ Reachable.init rfl, by decide,
    heap_invariant_reachable queue513 (reachable_addAll tasks513 _ _ Reachable.init rfl) 0⟩

/-- C2: in every reachable state the map and the heap hold the same tasks: the
map has one entry per key, every task stored in the map occurs in the heap
exactly once, every heap element is the map value of some peer, and the heap
has as many slots as the map has entries. -/
theorem map_heap_consistent_reachable (d : DialQueue) (h : Reachable d) :
    (d.tasks.map Prod.fst).Nodup ∧
    (∀ id p, d.tasks.get id = some p → d.heap.items.count p = 1) ∧
    (∀ p, p ∈ d.heap.items → ∃ id, d.tasks.get id = some p) ∧
    d.heap.items.length = d.tasks.length := by
  have hwf := WF.of_reachable h
  have hnd := hwf.idx.nodup
  refine ⟨hwf.keys, ?_, ?_, ?_⟩
  · intro id p hget
    exact List.count_eq_one_of_mem hnd (hwf.mapHeap id p hget).1
  · intro p hp
    exact ⟨_, hwf.heapMap p hp⟩
  · have hvals : (d.tasks.map Prod.snd).Nodup := by
      refine List.Nodup.map_on ?_ (List.Nodup.of_map _ hwf.keys)
      intro x hx y hy hxy
      obtain ⟨k1, v1⟩ := x
      obtain ⟨k2, v2⟩ := y
      have e : v1 = v2 := hxy
      subst e
      have h1 := (hwf.mapHeap k1 v1 (TaskMap.get_of_mem hwf.keys hx)).2
      have h2 := (hwf.mapHeap k2 v1 (TaskMap.get_of_mem hwf.keys hy)).2
      rw [← h1, ← h2]
    have hperm : (d.tasks.map Prod.snd).Perm d.heap.items := by
      rw [List.perm_ext_iff_of_nodup hvals hnd]
      intro p
      constructor
      · intro hp
        obtain ⟨⟨k, v⟩, hmem, e⟩ := List.mem_map.mp hp
        have e1 : v = p := e
        subst e1
        exact (hwf.mapHeap k v (TaskMap.get_of_mem hwf.keys hmem)).1
      · intro hp
        exact List.mem_map.mpr ⟨(_, p), TaskMap.mem_of_get (hwf.heapMap p hp), rfl⟩
    have := hperm.length_eq
    rw [List.length_map] at this
    exact this.symm

/-- Witness of C2 on the queue holding three tasks. -/
theorem map_heap_consistent_reachable_witness :
    Reachable queue513 ∧ queue513.heap.items.length = 3 ∧
      ((queue513.tasks.map Prod.fst).Nodup ∧
       (∀ id p, queue513.tasks.get id = some p → queue513.heap.items.count p = 1) ∧
       (∀ p, p ∈ queue513.heap.items → ∃ id, queue513.tasks.get id = some p) ∧
       queue513.heap.items.length = queue513.tasks.length) :=
  ⟨reachable_addAll tasks513 _ _ Reachable.init rfl, by decide,
    map_heap_consistent_reachable queue513 (reachable_addAll tasks513 _ _ Reachable.init rfl)⟩

/-- C3: on every reachable state with a non-empty heap `popTaskImpl` returns a
task that was pending, and its priority is at most the priority of every task
pending before the call; a task returned by `PopTask` is such a task too. -/
theorem popTaskImpl_returns_most_urgent (d : DialQueue) (h : Reachable d)
    (hne : d.heap.Len ≠ 0) :
    (∃ d1 t, popTaskImpl d = some (d1, some t) ∧ t ∈ d.heap.items ∧
      (d1.heap.mem t).priority = (d.heap.mem t).priority ∧
      ∀ q, q ∈ d.heap.items → (d1.heap.mem t).priority ≤ (d.heap.mem q).priority) ∧
    (∀ pick d2 t, PopTask d pick = some (.returned d2 (some t)) → t ∈ d.heap.items ∧
      ∀ q, q ∈ d.heap.items → (d2.heap.mem t).priority ≤ (d.heap.mem q).priority) := by
  have hwf := WF.of_reachable h
  constructor
  · obtain ⟨d1, t, hpop, h0, hrem, -⟩ := popTaskImpl_spec hwf hne
    refine ⟨d1, t, hpop, List.getElem?_mem h0, hrem.prio t, ?_⟩
    intro q hq
    rw [hrem.prio t]
    exact hwf.root_min h0 q hq
  · intro pick d2 t hpt
    have hpop := PopTaskLoop_task _ _ _ _ _ _ hpt
    have hwf1 : WF { d with updateCh := d.updateCh - 1 } := hwf.congr rfl rfl rfl
    obtain ⟨d3, t3, hpop3, h0, hrem, -⟩ := popTaskImpl_spec hwf1 hne
    rw [hpop] at hpop3
    cases hpop3
    refine ⟨List.getElem?_mem h0, ?_⟩
    intro q hq
    rw [hrem.prio t]
    exact hwf.root_min h0 q hq

/-- Witness of C3: from the queue holding the priorities 5, 1, 3 the pop
returns the task of priority 1. -/
theorem popTaskImpl_returns_most_urgent_witness :
    Reachable queue513 ∧ queue513.heap.Len ≠ 0 ∧
      (popN 1 queue513).map Prod.snd = some [1] ∧
      ((∃ d1 t, popTaskImpl queue513 = some (d1, some t) ∧ t ∈ queue513.heap.items ∧
        (d1.heap.mem t).priority = (queue513.heap.mem t).priority ∧
        ∀ q, q ∈ queue513.heap.items →
          (d1.heap.mem t).priority ≤ (queue513.heap.mem q).priority) ∧
      (∀ pick d2 t, PopTask queue513 pick = some (.returned d2 (some t)) →
        t ∈ queue513.heap.items ∧
        ∀ q, q ∈ queue513.heap.items →
          (d2.heap.mem t).priority ≤ (queue513.heap.mem q).priority)) :=
  ⟨reachable_addAll tasks513 _ _ Reachable.init rfl, by decide, by decide,
    popTaskImpl_returns_most_urgent queue513
      (reachable_addAll tasks513 _ _ Reachable.init rfl) (by decide)⟩

theorem AddTask_of_impl {d : DialQueue} {a : AddrInfo} {p : Nat} (c : Bool) {d1 : DialQueue}
    {b : Bool} (h : addTaskImpl d a p = some (d1, b)) :
    ∃ o, AddTask d a p c = some o ∧ o.queue.heap = d1.heap ∧ o.queue.tasks = d1.tasks ∧
      o.queue.next = d1.next ∧ o.queue.closeCh = d1.closeCh ∧
      (b = false → o = .returned d1) := by
  simp only [AddTask, h, Option.bind_eq_bind, Option.some_bind]
  cases b with
  | false => exact ⟨_, rfl, rfl, rfl, rfl, rfl, fun _ => rfl⟩
  | true =>
    simp only [if_true]
    split_ifs <;> exact ⟨_, rfl, rfl, rfl, rfl, rfl, fun e => by cases e⟩

theorem Removed.prios_perm {t t1 : dialQueueImpl} {p : Ptr} (h : Removed t t1 p) :
    ((t.mem p).priority :: t1.prios).Perm t.prios := by
  have e : t1.prios = t1.items.map (fun q => (t.mem q).priority) := by
    simp only [dialQueueImpl.prios]
    exact List.map_congr_left (fun q _ => h.prio q)
  rw [e]
  exact h.perm.map (fun q => (t.mem q).priority)

theorem WF.tasks_nil {d : DialQueue} (h : WF d) (hl : d.heap.Len = 0) : d.tasks = [] := by
  cases ht : d.tasks with
  | nil => rfl
  | cons e m =>
    obtain ⟨k, v⟩ := e
    have hg : d.tasks.get k = some v := by rw [ht]; simp [TaskMap.get]
    have hv := (h.mapHeap k v hg).1
    have : d.heap.items = [] := List.length_eq_zero.mp hl
    rw [this] at hv
    cases hv

/-- Adding tasks for new, pairwise distinct peers inserts every one of them. -/
theorem addAll_spec : ∀ (l : List (AddrInfo × Nat × Bool)) (d : DialQueue), WF d →
    (l.map (fun x => x.1.ID)).Nodup → (∀ x, x ∈ l → d.tasks.get x.1.ID = none) →
    ∃ d1, addAll d l = some d1 ∧ WF d1 ∧
      d1.heap.prios.Perm (l.map (fun x => x.2.1) ++ d.heap.prios) ∧
      d1.heap.peers.Perm (l.map (fun x => x.1.ID) ++ d.heap.peers) := by
  intro l
  induction l with
  | nil =>
    intro d h _ _
    exact ⟨d, rfl, h, List.Perm.refl _, List.Perm.refl _⟩
  | cons x l ih =>
    intro d h hnd hnone
    obtain ⟨a, p, c⟩ := x
    rw [List.map_cons, List.nodup_cons] at hnd
    obtain ⟨d1, himpl, hwf1, htasks, hperm, haddr, hprio, hrest, -, -, hnext⟩ :=
      addTaskImpl_new h p (hnone (a, p, c) (List.mem_cons_self _ _))
    obtain ⟨o, hadd, hh, ht, hn, -, -⟩ := AddTask_of_impl c himpl
    have hwfo : WF o.queue := hwf1.congr hh ht hn
    have hnone1 : ∀ x, x ∈ l → o.queue.tasks.get x.1.ID = none := by
      intro x hx
      have hne : x.1.ID ≠ a.ID := by
        intro e
        exact hnd.1 (List.mem_map.mpr ⟨x, hx, e⟩)
      rw [ht, htasks, TaskMap.get_set_ne _ _ hne]
      exact hnone x (List.mem_cons_of_mem _ hx)
    obtain ⟨d2, hall, hwf2, hp2, hq2⟩ := ih o.queue hwfo hnd.2 hnone1
    have hfresh : ∀ q, q ∈ d.heap.items → q ≠ d.next :=
      fun q hq e => Nat.lt_irrefl _ (e ▸ h.fresh q hq)
    have hpri : d1.heap.prios.Perm (p :: d.heap.prios) := by
      have e1 : (d.next :: d.heap.items).map (fun q => (d1.heap.mem q).priority)
          = p :: d.heap.prios := by
        simp only [List.map_cons, hprio, dialQueueImpl.prios]
        congr 1
        exact List.map_congr_left (fun q hq => (hrest q (hfresh q hq)).1)
      rw [← e1]
      exact hperm.map _
    have hpee : d1.heap.peers.Perm (a.ID :: d.heap.peers) := by
      have e1 : (d.next :: d.heap.items).map (fun q => (d1.heap.mem q).addrInfo.ID)
          = a.ID :: d.heap.peers := by
        simp only [List.map_cons, haddr, dialQueueImpl.peers]
        congr 1
        exact List.map_congr_left (fun q hq => by rw [(hrest q (hfresh q hq)).2])
      rw [← e1]
      exact hperm.map _
    refine ⟨d2, ?_, hwf2, ?_, ?_⟩
    · simp only [addAll, hadd, Option.bind_eq_bind, Option.some_bind]
      exact hall
    · rw [hh] at hp2
      refine hp2.trans ?_
      simp only [List.map_cons, List.cons_append]
      exact (List.Perm.append_left _ hpri).trans List.perm_middle
    · rw [hh] at hq2
      refine hq2.trans ?_
      simp only [List.map_cons, List.cons_append]
      exact (List.Perm.append_left _ hpee).trans List.perm_middle

/-- Popping as many times as the heap has slots returns the priorities in
non-decreasing order and empties the queue. -/
theorem popN_spec : ∀ (n : Nat) (d : DialQueue), WF d → d.heap.Len = n →
    ∃ d1 out, popN n d = some (d1, out) ∧ out.Sorted (· ≤ ·) ∧ out.Perm d.heap.prios ∧
      WF d1 ∧ d1.heap.Len = 0 := by
  intro n
  induction n with
  | zero =>
    intro d h hl
    refine ⟨d, [], rfl, List.sorted_nil, ?_, h, hl⟩
    have : d.heap.items = [] := List.length_eq_zero.mp hl
    simp [dialQueueImpl.prios, this]
  | succ n ih =>
    intro d h hl
    obtain ⟨d1, p, hpop, h0, hrem, hwf1, -, -, -, -, hl1⟩ :=
      popTaskImpl_spec h (by omega)
    obtain ⟨d2, out, hrun, hsorted, hperm, hwf2, hl2⟩ := ih d1 hwf1 (by omega)
    refine ⟨d2, (d1.heap.mem p).priority :: out, ?_, ?_, ?_, hwf2, hl2⟩
    · simp only [popN, hpop, hrun, Option.bind_eq_bind, Option.some_bind]
    · refine List.sorted_cons.mpr ⟨?_, hsorted⟩
      intro x hx
      have hx1 : x ∈ d1.heap.prios := hperm.mem_iff.mp hx
      obtain ⟨q, hq, e⟩ := List.mem_map.mp hx1
      have hq1 : q ∈ d.heap.items := hrem.perm.mem_iff.mp (List.mem_cons_of_mem _ hq)
      have := h.root_min h0 q hq1
      rw [← e, hrem.prio p, hrem.prio q]
      exact this
    · rw [hrem.prio p]
      exact (List.Perm.cons _ hperm).trans hrem.prios_perm

/-- C4: when tasks for pairwise distinct peers with priorities `p1..pn` are
added by `AddTask` to the empty queue, `n` successive pops return `n` tasks
whose priorities are `p1..pn` in non-decreasing order, and the queue is empty
afterwards. -/
theorem priority_extraction_order (l : List (AddrInfo × Nat × Bool))
    (hd : (l.map (fun x => x.1.ID)).Nodup) :
    ∃ d d1, addAll NewDialQueue l = some d ∧
      popN l.length d = some (d1, (l.map (fun x => x.2.1)).insertionSort (· ≤ ·)) ∧
      d1.heap.items = [] ∧ d1.tasks = [] := by
  obtain ⟨d, hall, hwf, hprios, -⟩ :=
    addAll_spec l NewDialQueue WF.init hd (fun _ _ => rfl)
  have hp0 : NewDialQueue.heap.prios = [] := rfl
  rw [hp0, List.append_nil] at hprios
  have hlen : d.heap.Len = l.length := by
    have := hprios.length_eq
    simpa [dialQueueImpl.prios, dialQueueImpl.Len] using this
  obtain ⟨d1, out, hrun, hsorted, hperm, hwf1, hl1⟩ := popN_spec l.length d hwf hlen
  have hout : out = (l.map (fun x => x.2.1)).insertionSort (· ≤ ·) :=
    List.eq_of_perm_of_sorted
      ((hperm.trans hprios).trans (List.perm_insertionSort _ _).symm) hsorted
      (List.sorted_insertionSort _ _)
  refine ⟨d, d1, hall, by rw [hrun, hout], List.length_eq_zero.mp hl1, hwf1.tasks_nil hl1⟩

/-- Witness of C4: the priorities 5, 1, 3 are popped as 1, 3, 5. -/
theorem priority_extraction_order_witness :
    (tasks513.map (fun x => x.1.ID)).Nodup ∧
      (tasks513.map (fun x => x.2.1)).insertionSort (· ≤ ·) = [1, 3, 5] ∧
      (popN 3 queue513).map Prod.snd = some [1, 3, 5] ∧
      ∃ d d1, addAll NewDialQueue tasks513 = some d ∧
        popN tasks513.length d =
          some (d1, (tasks513.map (fun x => x.2.1)).insertionSort (· ≤ ·)) ∧
        d1.heap.items = [] ∧ d1.tasks = [] :=
  ⟨by decide, by decide, by decide, priority_extraction_order tasks513 (by decide)⟩

/-- What `addTaskImpl` does to the map: afterwards the peer has an entry, and
the entries of all other peers are the same. -/
theorem addTaskImpl_tasks {d : DialQueue} (h : WF d) (a : AddrInfo) (p : Nat) :
    ∃ d1, addTaskImpl d a p = some (d1, (d.tasks.get a.ID).isNone) ∧ WF d1 ∧
      (∃ x, d1.tasks.get a.ID = some x) ∧
      (∀ id, id ≠ a.ID → d1.tasks.get id = d.tasks.get id) ∧
      d1.updateCh = d.updateCh ∧ d1.closeCh = d.closeCh := by
  cases hget : d.tasks.get a.ID with
  | none =>
    obtain ⟨d1, h1, h2, ht, -, -, -, -, h3, h4, -⟩ := addTaskImpl_new h p hget
    refine ⟨d1, h1, h2, ⟨d.next, ?_⟩, ?_, h3, h4⟩
    · rw [ht]; exact TaskMap.get_set_self _ _ _
    · intro id hid; rw [ht]; exact TaskMap.get_set_ne _ _ hid
  | some item =>
    by_cases hlt : p < (d.heap.mem item).priority
    · obtain ⟨d1, h1, h2, ht, -, -, -, -, h3, h4, -⟩ := addTaskImpl_upgrade h hget hlt
      exact ⟨d1, h1, h2, ⟨item, by rw [ht]; exact hget⟩, fun id _ => by rw [ht], h3, h4⟩
    · exact ⟨d, addTaskImpl_keep hget (by omega), h, ⟨item, hget⟩, fun _ _ => rfl, rfl, rfl⟩

theorem WF.peers_nodup {d : DialQueue} (h : WF d) : d.heap.peers.Nodup :=
  List.Nodup.map_on (fun _ hp _ hq e => h.peer_inj hp hq e) h.idx.nodup

theorem WF.absent_of_get_none {d : DialQueue} (h : WF d) {id : PeerID}
    (hg : d.tasks.get id = none) :
    ∀ q, q ∈ d.heap.items → (d.heap.mem q).addrInfo.ID ≠ id := by
  intro q hq e
  have := h.heapMap q hq
  rw [e, hg] at this
  cases this

/-- A peer without an entry is not returned by later pops unless it is added
again. -/
theorem runOps_absent : ∀ (ops : List Op) (d : DialQueue) (id : PeerID), WF d →
    d.tasks.get id = none → (∀ a p c, Op.add a p c ∈ ops → a.ID ≠ id) →
    ∀ d2 out, runOps d ops = some (d2, out) → id ∉ out := by
  intro ops
  induction ops with
  | nil =>
    intro d id _ _ _ d2 out hrun
    simp only [runOps] at hrun
    cases hrun
    exact List.not_mem_nil _
  | cons op ops ih =>
    intro d id hwf hg hadd d2 out hrun
    have hadd1 : ∀ a p c, Op.add a p c ∈ ops → a.ID ≠ id :=
      fun a p c hm => hadd a p c (List.mem_cons_of_mem _ hm)
    cases op with
    | add a p c =>
      have hne : a.ID ≠ id := hadd a p c (List.mem_cons_self _ _)
      obtain ⟨d1, himpl, hwf1, -, hsame, -, -⟩ := addTaskImpl_tasks hwf a p
      obtain ⟨o, ho, hh, ht, hn, -, -⟩ := AddTask_of_impl c himpl
      simp only [runOps, ho, Option.bind_eq_bind, Option.some_bind] at hrun
      refine ih o.queue id (hwf1.congr hh ht hn) ?_ hadd1 d2 out hrun
      rw [ht, hsame id (Ne.symm hne)]
      exact hg
    | del id2 =>
      cases hget : d.tasks.get id2 with
      | none =>
        simp only [runOps, DeleteTask_absent hget, Option.bind_eq_bind, Option.some_bind] at hrun
        exact ih d id hwf hg hadd1 d2 out hrun
      | some x =>
        obtain ⟨d1, hdel, -, hwf1, ht, -⟩ := DeleteTask_spec hwf hget
        simp only [runOps, hdel, Option.bind_eq_bind, Option.some_bind] at hrun
        refine ih d1 id hwf1 ?_ hadd1 d2 out hrun
        rw [ht]
        by_cases e : id = id2
        · subst e; exact TaskMap.get_delete_self _ _
        · rw [TaskMap.get_delete_ne _ e]; exact hg
    | pop =>
      by_cases hlen : d.heap.Len = 0
      · simp only [runOps, popTaskImpl_empty hlen, Option.bind_eq_bind, Option.some_bind] at hrun
        cases hr : runOps d ops with
        | none => rw [hr] at hrun; cases hrun
        | some r =>
          obtain ⟨d3, out3⟩ := r
          rw [hr] at hrun
          cases hrun
          exact ih d id hwf hg hadd1 _ _ hr
      · obtain ⟨d1, t, hpop, h0, hrem, hwf1, ht, -⟩ := popTaskImpl_spec hwf hlen
        simp only [runOps, hpop, Option.bind_eq_bind, Option.some_bind] at hrun
        have hg1 : d1.tasks.get id = none := by
          rw [ht]
          by_cases e : id = (d.heap.mem t).addrInfo.ID
          · rw [e]; exact TaskMap.get_delete_self _ _
          · rw [TaskMap.get_delete_ne _ e]; exact hg
        cases hr : runOps d1 ops with
        | none => rw [hr] at hrun; cases hrun
        | some r =>
          obtain ⟨d3, out3⟩ := r
          rw [hr] at hrun
          cases hrun
          have hrest := ih d1 id hwf1 hg1 hadd1 _ _ hr
          have hne : (d1.heap.mem t).addrInfo.ID ≠ id := by
            rw [hrem.addr t]
            exact hwf.absent_of_get_none hg t (List.getElem?_mem h0)
          intro hm
          rcases List.mem_cons.mp hm with e | e
          · exact hne e.symm
          · exact hrest e

/-- The signal buffer never holds more than its capacity. -/
theorem reachable_updateCh_le {d : DialQueue} (h : Reachable d) :
    d.updateCh ≤ updateChBufferSize := by
  induction h with
  | init => simp [NewDialQueue]
  | @add d0 o a p c _ hadd ih =>
    have hwf := WF.of_reachable (by assumption : Reachable d0)
    obtain ⟨d1, himpl, -, -, -, hu, -⟩ := addTaskImpl_tasks hwf a p
    simp only [AddTask, himpl, Option.bind_eq_bind, Option.some_bind] at hadd
    split_ifs at hadd <;> cases hadd <;> simp only [Outcome.queue] <;>
      first
        | (rw [hu]; exact ih)
        | (show d1.updateCh + 1 ≤ updateChBufferSize
           simp_all
           omega)
  | @del d0 d1 id _ hdel ih =>
    have hwf := WF.of_reachable (by assumption : Reachable d0)
    cases hget : d0.tasks.get id with
    | none => rw [DeleteTask_absent hget] at hdel; cases hdel; exact ih
    | some x =>
      obtain ⟨d2, h2, -, -, -, hu, -⟩ := DeleteTask_spec hwf hget
      rw [hdel] at h2; cases h2; rw [hu]; exact ih
  | @pop d0 d1 t _ hpop ih =>
    have hwf := WF.of_reachable (by assumption : Reachable d0)
    by_cases hlen : d0.heap.Len = 0
    · rw [popTaskImpl_empty hlen] at hpop; cases hpop; exact ih
    · obtain ⟨d2, x, h2, -, -, -, -, hu, -⟩ := popTaskImpl_spec hwf hlen
      rw [hpop] at h2; cases h2; rw [hu]; exact ih
  | close _ hc ih =>
    unfold Close at hc
    split_ifs at hc
    cases hc
    exact ih
  | recv _ _ ih => exact Nat.le_trans (Nat.sub_le _ _) ih
  | send _ hlt _ => exact hlt

/-- C5: when the peer of `a` already has a pending task `item` of priority `q`
in a reachable queue, `AddTask` with priority `p` returns and leaves that task
with priority `min p q`; its address hint is the new one when `p < q` and the
old one otherwise; the map, the set of pending tasks and the priority and
address hint of every other task are unchanged. -/
theorem upgrade_only_if_more_urgent (d : DialQueue) (h : Reachable d) (a : AddrInfo)
    (p : Nat) (c : Bool) (item : Ptr) (hget : d.tasks.get a.ID = some item) :
    ∃ d1, AddTask d a p c = some (.returned d1) ∧ d1.tasks = d.tasks ∧
      (d1.heap.mem item).priority = min p (d.heap.mem item).priority ∧
      (p < (d.heap.mem item).priority → (d1.heap.mem item).addrInfo = a) ∧
      (¬ p < (d.heap.mem item).priority →
        (d1.heap.mem item).addrInfo = (d.heap.mem item).addrInfo) ∧
      d1.heap.items.Perm d.heap.items ∧
      (∀ q, q ≠ item → (d1.heap.mem q).priority = (d.heap.mem q).priority ∧
        (d1.heap.mem q).addrInfo = (d.heap.mem q).addrInfo) := by
  have hwf := WF.of_reachable h
  by_cases hlt : p < (d.heap.mem item).priority
  · obtain ⟨d1, himpl, -, ht, hperm, haddr, hprio, hrest, -⟩ :=
      addTaskImpl_upgrade hwf hget hlt
    obtain ⟨o, ho, -, -, -, -, hret⟩ := AddTask_of_impl c himpl
    rw [hret rfl] at ho
    refine ⟨d1, ho, ht, ?_, fun _ => haddr, fun hn => absurd hlt hn, hperm, hrest⟩
    rw [hprio]; omega
  · have himpl := addTaskImpl_keep (a := a) hget (Nat.le_of_not_lt hlt)
    obtain ⟨o, ho, -, -, -, -, hret⟩ := AddTask_of_impl c himpl
    rw [hret rfl] at ho
    refine ⟨d, ho, rfl, ?_, fun hl => absurd hl hlt, fun _ => rfl, List.Perm.refl _,
      fun _ _ => ⟨rfl, rfl⟩⟩
    omega

/-- Witness of C5: peer 7 is pending with priority 10; adding it again with
priority 20 keeps 10 and the old address hint, adding it with priority 2
stores 2 and the new address hint. -/
theorem upgrade_only_if_more_urgent_witness :
    Reachable queueP10 ∧ queueP10.tasks.get 7 = some 0 ∧
      storedPriority queueP10 7 = some 10 ∧
      (AddTask queueP10 ⟨7, [2]⟩ 20 false).map (fun o => storedPriority o.queue 7)
        = some (some 10) ∧
      (AddTask queueP10 ⟨7, [2]⟩ 20 false).map (fun o => storedAddrInfo o.queue 7)
        = some (some ⟨7, [1]⟩) ∧
      (AddTask queueP10 ⟨7, [2]⟩ 2 false).map (fun o => storedPriority o.queue 7)
        = some (some 2) ∧
      (AddTask queueP10 ⟨7, [2]⟩ 2 false).map (fun o => storedAddrInfo o.queue 7)
        = some (some ⟨7, [2]⟩) ∧
      ∃ d1, AddTask queueP10 ⟨7, [2]⟩ 2 false = some (.returned d1) ∧
        d1.tasks = queueP10.tasks ∧
        (d1.heap.mem 0).priority = min 2 (queueP10.heap.mem 0).priority ∧
        (2 < (queueP10.heap.mem 0).priority → (d1.heap.mem 0).addrInfo = ⟨7, [2]⟩) ∧
        (¬ 2 < (queueP10.heap.mem 0).priority →
          (d1.heap.mem 0).addrInfo = (queueP10.heap.mem 0).addrInfo) ∧
        d1.heap.items.Perm queueP10.heap.items ∧
        (∀ q, q ≠ 0 → (d1.heap.mem q).priority = (queueP10.heap.mem q).priority ∧
          (d1.heap.mem q).addrInfo = (queueP10.heap.mem q).addrInfo) :=
  ⟨reachable_addAll tasksP10 _ _ Reachable.init rfl, by decide, by decide, by decide,
    by decide, by decide, by decide,
    upgrade_only_if_more_urgent queueP10 (reachable_addAll tasksP10 _ _ Reachable.init rfl)
      ⟨7, [2]⟩ 2 false 0 (by decide)⟩

/-- C6: when the peer of `a` has a pending task whose priority is at most `p`,
`AddTask` with priority `p` returns and leaves the whole queue state as it was:
heap slots, stored objects, map, and number of buffered signals. -/
theorem duplicate_add_is_noop (d : DialQueue) (a : AddrInfo) (p : Nat) (c : Bool)
    (item : Ptr) (hget : d.tasks.get a.ID = some item)
    (hge : (d.heap.mem item).priority ≤ p) :
    AddTask d a p c = some (.returned d) := by
  obtain ⟨o, ho, -, -, -, -, hret⟩ := AddTask_of_impl c (addTaskImpl_keep (a := a) hget hge)
  rw [hret rfl] at ho
  exact ho

/-- Witness of C6: peer 7 is pending with priority 10, and adding it again with
priority 20 changes nothing. -/
theorem duplicate_add_is_noop_witness :
    queueP10.tasks.get 7 = some 0 ∧ (queueP10.heap.mem 0).priority ≤ 20 ∧
      AddTask queueP10 ⟨7, [2]⟩ 20 true = some (.returned queueP10) :=
  ⟨by decide, by decide, duplicate_add_is_noop queueP10 ⟨7, [2]⟩ 20 true 0 (by decide) (by decide)⟩

/-- C7: on a reachable queue `DeleteTask id` returns; afterwards the peer `id`
has no entry in the map and no task in the heap, every task of another peer is
still in the map and in the heap with its priority and address hint; when `id`
had no pending task the state is unchanged; the number of buffered signals is
unchanged in both cases. -/
theorem removal_correct (d : DialQueue) (h : Reachable d) (id : PeerID) :
    ∃ d1, DeleteTask d id = some d1 ∧ d1.tasks.get id = none ∧
      (∀ q, q ∈ d1.heap.items → (d1.heap.mem q).addrInfo.ID ≠ id) ∧
      (∀ id2 it, id2 ≠ id → d.tasks.get id2 = some it →
        d1.tasks.get id2 = some it ∧ it ∈ d1.heap.items ∧
        (d1.heap.mem it).priority = (d.heap.mem it).priority ∧
        (d1.heap.mem it).addrInfo = (d.heap.mem it).addrInfo) ∧
      (d.tasks.get id = none → d1 = d) ∧
      d1.updateCh = d.updateCh := by
  have hwf := WF.of_reachable h
  cases hget : d.tasks.get id with
  | none =>
    refine ⟨d, DeleteTask_absent hget, hget, hwf.absent_of_get_none hget, ?_, fun _ => rfl, rfl⟩
    intro id2 it _ hg
    exact ⟨hg, (hwf.mapHeap id2 it hg).1, rfl, rfl⟩
  | some p =>
    obtain ⟨d1, hdel, hrem, hwf1, ht, hu, -⟩ := DeleteTask_spec hwf hget
    have hnone : d1.tasks.get id = none := by rw [ht]; exact TaskMap.get_delete_self _ _
    refine ⟨d1, hdel, hnone, hwf1.absent_of_get_none hnone, ?_, (fun e => by cases e), hu⟩
    intro id2 it hne hg
    have hg1 : d1.tasks.get id2 = some it := by
      rw [ht, TaskMap.get_delete_ne _ hne]; exact hg
    exact ⟨hg1, (hwf1.mapHeap id2 it hg1).1, hrem.prio it, hrem.addr it⟩

/-- Witness of C7: with `A` (peer 1, priority 1) and `B` (peer 2, priority 2)
pending, removing `A` makes the next pop return `B`. -/
theorem removal_correct_witness :
    Reachable queueAB ∧
      (DeleteTask queueAB 1).bind (fun d => (runOps d [Op.pop]).map Prod.snd) = some [2] ∧
      ∃ d1, DeleteTask queueAB 1 = some d1 ∧ d1.tasks.get 1 = none ∧
        (∀ q, q ∈ d1.heap.items → (d1.heap.mem q).addrInfo.ID ≠ 1) ∧
        (∀ id2 it, id2 ≠ 1 → queueAB.tasks.get id2 = some it →
          d1.tasks.get id2 = some it ∧ it ∈ d1.heap.items ∧
          (d1.heap.mem it).priority = (queueAB.heap.mem it).priority ∧
          (d1.heap.mem it).addrInfo = (queueAB.heap.mem it).addrInfo) ∧
        (queueAB.tasks.get 1 = none → d1 = queueAB) ∧
        d1.updateCh = queueAB.updateCh :=
  ⟨reachable_addAll tasksAB _ _ Reachable.init rfl, by decide,
    removal_correct queueAB (reachable_addAll tasksAB _ _ Reachable.init rfl) 1⟩

/-- C8: on a reachable queue with a non-empty heap `popTaskImpl` returns a task
`t`; afterwards the peer of `t` has no entry in the map and no task in the
heap, the pending tasks are the earlier ones without `t`, with their data, and
no later pop returns a task of that peer as long as the peer is not added
again. -/
theorem no_duplicate_delivery (d : DialQueue) (h : Reachable d) (hne : d.heap.Len ≠ 0) :
    ∃ d1 t, popTaskImpl d = some (d1, some t) ∧
      d1.tasks.get (d1.heap.mem t).addrInfo.ID = none ∧
      (∀ q, q ∈ d1.heap.items → (d1.heap.mem q).addrInfo.ID ≠ (d1.heap.mem t).addrInfo.ID) ∧
      t ∉ d1.heap.items ∧
      (t :: d1.heap.items).Perm d.heap.items ∧
      d1.tasks = d.tasks.delete (d.heap.mem t).addrInfo.ID ∧
      (∀ q, (d1.heap.mem q).priority = (d.heap.mem q).priority ∧
        (d1.heap.mem q).addrInfo = (d.heap.mem q).addrInfo) ∧
      (∀ ops d2 out, (∀ a p c, Op.add a p c ∈ ops → a.ID ≠ (d1.heap.mem t).addrInfo.ID) →
        runOps d1 ops = some (d2, out) → (d1.heap.mem t).addrInfo.ID ∉ out) := by
  have hwf := WF.of_reachable h
  obtain ⟨d1, t, hpop, -, hrem, hwf1, ht, -⟩ := popTaskImpl_spec hwf hne
  have hnone : d1.tasks.get (d1.heap.mem t).addrInfo.ID = none := by
    rw [ht, hrem.addr t]; exact TaskMap.get_delete_self _ _
  have hnd : (t :: d1.heap.items).Nodup := hrem.perm.nodup_iff.mpr hwf.idx.nodup
  exact ⟨d1, t, hpop, hnone, hwf1.absent_of_get_none hnone, (List.nodup_cons.mp hnd).1,
    hrem.perm, ht, fun q => ⟨hrem.prio q, hrem.addr q⟩,
    fun ops d2 out hadd hrun => runOps_absent ops d1 _ hwf1 hnone hadd d2 out hrun⟩

/-- Witness of C8: from the queue holding `A` and `B` the first pop returns
`A`, and the pops after it return `B` and then nothing. -/
theorem no_duplicate_delivery_witness :
    Reachable queueAB ∧ queueAB.heap.Len ≠ 0 ∧
      (runOps queueAB [Op.pop, Op.pop, Op.pop]).map Prod.snd = some [1, 2] ∧
      ∃ d1 t, popTaskImpl queueAB = some (d1, some t) ∧
        d1.tasks.get (d1.heap.mem t).addrInfo.ID = none ∧
        (∀ q, q ∈ d1.heap.items →
          (d1.heap.mem q).addrInfo.ID ≠ (d1.heap.mem t).addrInfo.ID) ∧
        t ∉ d1.heap.items ∧
        (t :: d1.heap.items).Perm queueAB.heap.items ∧
        d1.tasks = queueAB.tasks.delete (queueAB.heap.mem t).addrInfo.ID ∧
        (∀ q, (d1.heap.mem q).priority = (queueAB.heap.mem q).priority ∧
          (d1.heap.mem q).addrInfo = (queueAB.heap.mem q).addrInfo) ∧
        (∀ ops d2 out,
          (∀ a p c, Op.add a p c ∈ ops → a.ID ≠ (d1.heap.mem t).addrInfo.ID) →
          runOps d1 ops = some (d2, out) → (d1.heap.mem t).addrInfo.ID ∉ out) :=
  ⟨reachable_addAll tasksAB _ _ Reachable.init rfl, by decide, by decide,
    no_duplicate_delivery queueAB (reachable_addAll tasksAB _ _ Reachable.init rfl) (by decide)⟩

/-- C9: in every reachable state no two heap slots carry the same peer
identity, and every `AddTask` for a peer leaves exactly one pending task of
that peer, whether the call returns or is left waiting. -/
theorem one_pending_task_per_peer (d : DialQueue) (h : Reachable d) :
    d.heap.peers.Nodup ∧
    ∀ (a : AddrInfo) (p : Nat) (c : Bool), ∃ o, AddTask d a p c = some o ∧
      o.queue.heap.peers.count a.ID = 1 ∧ (o.queue.tasks.get a.ID).isSome = true := by
  have hwf := WF.of_reachable h
  refine ⟨hwf.peers_nodup, ?_⟩
  intro a p c
  obtain ⟨d1, himpl, hwf1, ⟨x, hx⟩, -⟩ := addTaskImpl_tasks hwf a p
  obtain ⟨o, ho, hh, ht, hn, -, -⟩ := AddTask_of_impl c himpl
  have hwfo : WF o.queue := hwf1.congr hh ht hn
  have hxo : o.queue.tasks.get a.ID = some x := by rw [ht]; exact hx
  obtain ⟨hmem, hid⟩ := hwfo.mapHeap _ _ hxo
  refine ⟨o, ho, ?_, by rw [hxo]; rfl⟩
  refine List.count_eq_one_of_mem hwfo.peers_nodup ?_
  exact List.mem_map.mpr ⟨x, hmem, hid⟩

/-- Witness of C9 on the queue holding `A` and `B`: adding `A` once more leaves
one pending task of `A`. -/
theorem one_pending_task_per_peer_witness :
    Reachable queueAB ∧ queueAB.heap.peers = [1, 2] ∧
      (AddTask queueAB ⟨1, []⟩ 0 false).map (fun o => o.queue.heap.peers) = some [1, 2] ∧
      (queueAB.heap.peers.Nodup ∧
       ∀ (a : AddrInfo) (p : Nat) (c : Bool), ∃ o, AddTask queueAB a p c = some o ∧
        o.queue.heap.peers.count a.ID = 1 ∧ (o.queue.tasks.get a.ID).isSome = true) :=
  ⟨reachable_addAll tasksAB _ _ Reachable.init rfl, by decide, by decide,
    one_pending_task_per_peer queueAB (reachable_addAll tasksAB _ _ Reachable.init rfl)⟩

/-- C10, counterexample: after twenty `AddTask` calls for distinct peers the
queue is not closed and its buffer holds `updateChBufferSize` signals; an
`AddTask` of a further peer does not return, however its `select` is resolved:
the caller is left waiting, and no signal is dropped. -/
theorem AddTask_waits_on_full_buffer :
    queueFull.closeCh = false ∧ queueFull.updateCh = updateChBufferSize ∧
      queueFull.tasks.get 21 = none ∧
      (AddTask queueFull ⟨21, []⟩ 5 true).map Outcome.isBlocked = some true ∧
      (AddTask queueFull ⟨21, []⟩ 5 false).map Outcome.isBlocked = some true := by
  decide

/-- C10, amended: on a reachable queue `AddTask` never faults, and it returns
without waiting unless the peer has no pending task, the queue is not closed
and the buffer already holds `updateChBufferSize` signals; in that one case the
task has been inserted and the caller waits on its `select`, the buffer staying
as it is. -/
theorem AddTask_waits_iff_new_and_full (d : DialQueue) (h : Reachable d) (a : AddrInfo)
    (p : Nat) (c : Bool) :
    d.updateCh ≤ updateChBufferSize ∧
    ∃ o, AddTask d a p c = some o ∧ (o.queue.tasks.get a.ID).isSome = true ∧
      (o.isBlocked = true ↔
        (d.tasks.get a.ID = none ∧ d.closeCh = false ∧ d.updateCh = updateChBufferSize)) ∧
      (o.isBlocked = true → o.queue.updateCh = d.updateCh) := by
  have hwf := WF.of_reachable h
  have hle := reachable_updateCh_le h
  refine ⟨hle, ?_⟩
  obtain ⟨d1, himpl, hwf1, ⟨x, hx⟩, -, hu, hc⟩ := addTaskImpl_tasks hwf a p
  cases hget : d.tasks.get a.ID with
  | some item =>
    rw [hget] at himpl
    obtain ⟨o, ho, -, ht, -, -, hret⟩ := AddTask_of_impl c himpl
    have ho1 := hret rfl
    subst ho1
    refine ⟨_, ho, by rw [show (Outcome.returned d1).queue = d1 from rfl, hx]; rfl, ?_, ?_⟩
    · simp [Outcome.isBlocked]
    · intro hb; simp [Outcome.isBlocked] at hb
  | none =>
    rw [hget] at himpl
    have hsome : (d1.tasks.get a.ID).isSome = true := by rw [hx]; rfl
    simp only [AddTask, himpl, Option.bind_eq_bind, Option.some_bind, Option.isNone_none,
      if_true]
    by_cases hcl : d1.closeCh = true
    · by_cases hs : d1.updateCh < updateChBufferSize
      · cases c <;>
          simp [hcl, hs, Outcome.isBlocked, Outcome.queue, hsome, ← hc]
      · simp [hcl, hs, Outcome.isBlocked, Outcome.queue, hsome, ← hc]
    · by_cases hs : d1.updateCh < updateChBufferSize
      · have : d.updateCh ≠ updateChBufferSize := by rw [← hu]; omega
        simp [hcl, hs, Outcome.isBlocked, Outcome.queue, hsome, this]
      · have : d.updateCh = updateChBufferSize := by rw [← hu]; omega
        have hcl2 : d.closeCh = false := by rw [← hc]; simpa using hcl
        simp [hcl, hs, Outcome.isBlocked, Outcome.queue, hsome, this, hcl2, hu]

/-- Witness of C10 as amended, on the queue whose buffer is full. -/
theorem AddTask_waits_iff_new_and_full_witness :
    Reachable queueFull ∧
      (queueFull.updateCh ≤ updateChBufferSize ∧
      ∃ o, AddTask queueFull ⟨21, []⟩ 5 false = some o ∧
        (o.queue.tasks.get (AddrInfo.mk 21 []).ID).isSome = true ∧
        (o.isBlocked = true ↔
          (queueFull.tasks.get (AddrInfo.mk 21 []).ID = none ∧ queueFull.closeCh = false ∧
            queueFull.updateCh = updateChBufferSize)) ∧
        (o.isBlocked = true → o.queue.updateCh = queueFull.updateCh)) :=
  ⟨reachable_addAll tasks20 _ _ Reachable.init rfl,
    AddTask_waits_iff_new_and_full queueFull
      (reachable_addAll tasks20 _ _ Reachable.init rfl) ⟨21, []⟩ 5 false⟩

/-! ## One iteration of the `PopTask` loop -/

/-- The iteration takes a signal and `popTaskImpl` hands out a task: `PopTask`
returns it. -/
theorem PopTaskLoop_recv_task {f k : Nat} {d d1 : DialQueue} {pick : Nat → Bool} {t : Ptr}
    (hu : 0 < d.updateCh) (hpick : d.closeCh = true → pick k = false)
    (hpop : popTaskImpl { d with updateCh := d.updateCh - 1 } = some (d1, some t)) :
    PopTaskLoop (f + 1) k d pick = some (.returned d1 (some t)) := by
  have hc : (decide (0 < d.updateCh) && (!d.closeCh || !pick k)) = true := by
    cases hcl : d.closeCh with
    | false => simp [hu]
    | true => simp [hu, hpick hcl]
  simp only [PopTaskLoop, hc, if_true, hpop, Option.bind_eq_bind, Option.some_bind]

/-- The iteration takes a signal and finds the heap empty: the loop goes round
again, with one signal less and nothing else changed. -/
theorem PopTaskLoop_recv_stale {f k : Nat} {d : DialQueue} {pick : Nat → Bool}
    (hu : 0 < d.updateCh) (hpick : d.closeCh = true → pick k = false)
    (hl : d.heap.Len = 0) :
    PopTaskLoop (f + 1) k d pick =
      PopTaskLoop f (k + 1) { d with updateCh := d.updateCh - 1 } pick := by
  have hc : (decide (0 < d.updateCh) && (!d.closeCh || !pick k)) = true := by
    cases hcl : d.closeCh with
    | false => simp [hu]
    | true => simp [hu, hpick hcl]
  have hpop : popTaskImpl { d with updateCh := d.updateCh - 1 } =
      some ({ d with updateCh := d.updateCh - 1 }, none) := popTaskImpl_empty hl
  simp only [PopTaskLoop, hc, if_true, hpop, Option.bind_eq_bind, Option.some_bind]

/-- The iteration takes the close case: `PopTask` returns `nil` and leaves the
queue as it is. -/
theorem PopTaskLoop_close {f k : Nat} {d : DialQueue} {pick : Nat → Bool}
    (hcl : d.closeCh = true) (hpick : d.updateCh = 0 ∨ pick k = true) :
    PopTaskLoop (f + 1) k d pick = some (.returned d none) := by
  have hc : ¬ (decide (0 < d.updateCh) && (!d.closeCh || !pick k)) = true := by
    rcases hpick with h | h
    · simp [h]
    · simp [h, hcl]
  simp only [PopTaskLoop]
  rw [if_neg hc, if_pos hcl]

/-- Neither case of the `select` is ready: the caller waits. -/
theorem PopTaskLoop_wait {f k : Nat} {d : DialQueue} {pick : Nat → Bool}
    (hcl : d.closeCh = false) (hu : d.updateCh = 0) :
    PopTaskLoop (f + 1) k d pick = some (.blocked d) := by
  simp [PopTaskLoop, hcl, hu]

/-- A `nil` is returned by `PopTask` only through the close case. -/
theorem PopTaskLoop_nil_closed : ∀ (f k : Nat) (d : DialQueue) (pick : Nat → Bool)
    (d1 : DialQueue), PopTaskLoop f k d pick = some (.returned d1 none) → d.closeCh = true := by
  intro f
  induction f with
  | zero => intro k d pick d1 h; simp [PopTaskLoop] at h
  | succ f ih =>
    intro k d pick d1 h
    simp only [PopTaskLoop] at h
    split_ifs at h with hc1 hc2
    · cases hr : popTaskImpl { d with updateCh := d.updateCh - 1 } with
      | none => rw [hr] at h; cases h
      | some r =>
        obtain ⟨d3, ot⟩ := r
        rw [hr] at h
        cases ot with
        | some task =>
          simp only [Option.bind_eq_bind, Option.some_bind] at h
          cases h
        | none =>
          simp only [Option.bind_eq_bind, Option.some_bind] at h
          obtain ⟨-, e⟩ := popTaskImpl_nil hr
          subst e
          have h2 := ih _ _ _ _ h
          exact h2
    · exact hc2
    · cases h

/-- A task returned by `PopTask` was pending, and no pending task was more
urgent. -/
theorem PopTask_task_min {d d2 : DialQueue} (hwf : WF d) {pick : Nat → Bool} {t : Ptr}
    (h : PopTask d pick = some (.returned d2 (some t))) :
    0 < d.updateCh ∧ d2.updateCh = d.updateCh - 1 ∧ d.heap.Len ≠ 0 ∧
      d.heap.items[0]? = some t ∧ Removed d.heap d2.heap t ∧ WF d2 ∧
      d2.tasks = d.tasks.delete (d.heap.mem t).addrInfo.ID ∧ d2.closeCh = d.closeCh ∧
      d2.heap.Len = d.heap.Len - 1 ∧
      ∀ q, q ∈ d.heap.items → (d2.heap.mem t).priority ≤ (d.heap.mem q).priority := by
  have hpop := PopTaskLoop_task _ _ _ _ _ _ h
  have hlen : d.heap.Len ≠ 0 := by
    intro hl
    have : popTaskImpl { d with updateCh := d.updateCh - 1 } =
        some ({ d with updateCh := d.updateCh - 1 }, none) := popTaskImpl_empty hl
    rw [this] at hpop
    cases hpop
  have hu : 0 < d.updateCh := by
    by_contra hc
    have hu0 : d.updateCh = 0 := by omega
    unfold PopTask at h
    cases hcl : d.closeCh with
    | false => rw [PopTaskLoop_wait hcl hu0] at h; cases h
    | true => rw [PopTaskLoop_close hcl (Or.inl hu0)] at h; cases h
  have hwf1 : WF { d with updateCh := d.updateCh - 1 } := hwf.congr rfl rfl rfl
  obtain ⟨d3, t3, hpop3, h0, hrem, hwf3, ht, hu3, hc3, -, hl3⟩ := popTaskImpl_spec hwf1 hlen
  rw [hpop] at hpop3
  cases hpop3
  refine ⟨hu, hu3, hlen, h0, hrem, hwf3, ht, hc3, hl3, ?_⟩
  intro q hq
  rw [hrem.prio t]
  exact hwf.root_min h0 q hq

/-- On a closed well-formed queue the `PopTask` loop returns. -/
theorem PopTaskLoop_closed_returns : ∀ (f k : Nat) (d : DialQueue) (pick : Nat → Bool),
    WF d → d.closeCh = true → d.updateCh < f →
    ∃ d1 t, PopTaskLoop f k d pick = some (.returned d1 t) := by
  intro f
  induction f with
  | zero => intro k d pick _ _ hf; omega
  | succ f ih =>
    intro k d pick hwf hcl hf
    by_cases hc : d.updateCh = 0 ∨ pick k = true
    · exact ⟨d, none, PopTaskLoop_close hcl hc⟩
    · have hu : 0 < d.updateCh := by
        by_contra h0; exact hc (Or.inl (by omega))
      have hp : d.closeCh = true → pick k = false := by
        intro _
        cases hpk : pick k with
        | false => rfl
        | true => exact absurd (Or.inr hpk) hc
      by_cases hl : d.heap.Len = 0
      · rw [PopTaskLoop_recv_stale hu hp hl]
        exact ih (k + 1) _ pick (hwf.congr rfl rfl rfl) hcl (by show d.updateCh - 1 < f; omega)
      · have hwf1 : WF { d with updateCh := d.updateCh - 1 } := hwf.congr rfl rfl rfl
        obtain ⟨d1, t, hpop, -⟩ := popTaskImpl_spec hwf1 hl
        exact ⟨d1, some t, PopTaskLoop_recv_task hu hp hpop⟩

/-- On a closed queue with an empty heap the `PopTask` loop returns `nil`; it
only takes stale signals out of the buffer. -/
theorem PopTaskLoop_closed_empty : ∀ (f k : Nat) (d : DialQueue) (pick : Nat → Bool),
    d.closeCh = true → d.heap.Len = 0 → d.updateCh < f →
    ∃ d1, PopTaskLoop f k d pick = some (.returned d1 none) ∧ d1.heap = d.heap ∧
      d1.tasks = d.tasks ∧ d1.closeCh = true ∧ d1.updateCh ≤ d.updateCh := by
  intro f
  induction f with
  | zero => intro k d pick _ _ hf; omega
  | succ f ih =>
    intro k d pick hcl hl hf
    by_cases hc : d.updateCh = 0 ∨ pick k = true
    · exact ⟨d, PopTaskLoop_close hcl hc, rfl, rfl, hcl, Nat.le_refl _⟩
    · have hu : 0 < d.updateCh := by
        by_contra h0; exact hc (Or.inl (by omega))
      have hp : d.closeCh = true → pick k = false := by
        intro _
        cases hpk : pick k with
        | false => rfl
        | true => exact absurd (Or.inr hpk) hc
      rw [PopTaskLoop_recv_stale hu hp hl]
      obtain ⟨d1, hrun, hh, ht, hc1, hu1⟩ :=
        ih (k + 1) { d with updateCh := d.updateCh - 1 } pick hcl hl
          (by show d.updateCh - 1 < f; omega)
      exact ⟨d1, hrun, hh, ht, hc1, Nat.le_trans hu1 (Nat.sub_le _ _)⟩

theorem reachable_runOps : ∀ (ops : List Op) (d d1 : DialQueue) (out : List PeerID),
    Reachable d → runOps d ops = some (d1, out) → Reachable d1 := by
  intro ops
  induction ops with
  | nil =>
    intro d d1 out h e
    simp only [runOps] at e
    cases e; exact h
  | cons op ops ih =>
    intro d d1 out h e
    cases op with
    | add a p c =>
      simp only [runOps, Option.bind_eq_bind] at e
      cases ho : AddTask d a p c with
      | none => rw [ho] at e; cases e
      | some o =>
        rw [ho] at e
        exact ih o.queue d1 out (Reachable.add a p c h ho) e
    | del id =>
      simp only [runOps, Option.bind_eq_bind] at e
      cases ho : DeleteTask d id with
      | none => rw [ho] at e; cases e
      | some d2 =>
        rw [ho] at e
        exact ih d2 d1 out (Reachable.del id h ho) e
    | pop =>
      simp only [runOps, Option.bind_eq_bind] at e
      cases ho : popTaskImpl d with
      | none => rw [ho] at e; cases e
      | some r =>
        obtain ⟨d2, t⟩ := r
        rw [ho] at e
        simp only [Option.some_bind] at e
        cases hr : runOps d2 ops with
        | none => rw [hr] at e; cases e
        | some r2 =>
          obtain ⟨d3, out3⟩ := r2
          rw [hr] at e
          have hd3 := ih d2 d3 out3 (Reachable.pop h ho) hr
          cases t <;> simp only [Option.some_bind] at e <;> cases e <;> exact hd3

theorem reachable_queue513 : Reachable queue513 :=
  reachable_addAll tasks513 _ _ Reachable.init rfl

theorem reachable_queueStale : Reachable queueStale :=
  reachable_runOps opsDelAB queueAB _ [] (reachable_addAll tasksAB _ _ Reachable.init rfl) rfl

/-- C11, counterexample: the queue holding the priorities 5, 1, 3 is closed
with three signals buffered; when the `select` of `PopTask` takes the buffered
signal, `PopTask` returns the pending task of priority 1, not `nil`. -/
theorem PopTask_after_Close_returns_task :
    (Close queue513).isSome = true ∧ queueClosed513.closeCh = true ∧
      queueClosed513.updateCh = 3 ∧ queueClosed513.heap.Len = 3 ∧
      (PopTask queueClosed513 (fun _ => false)).map
        (fun r => r.task.map (fun t => (r.queue.heap.mem t).priority)) = some (some 1) := by
  decide

/-- C11, amended: on a reachable queue on which `Close` has been called
`PopTask` never faults and never waits.  It returns `nil`, leaving the queue as
it is, when no signal is buffered or its `select` takes the close case; when a
signal is buffered and the `select` takes it while the heap is not empty, it
returns a task, and a returned task is a pending one of the lowest priority
value. -/
theorem PopTask_after_Close (d : DialQueue) (h : Reachable d) (hcl : d.closeCh = true)
    (pick : Nat → Bool) :
    ∃ d1 t, PopTask d pick = some (.returned d1 t) ∧
      ((d.updateCh = 0 ∨ pick 0 = true) → t = none ∧ d1 = d) ∧
      (0 < d.updateCh → pick 0 = false → d.heap.Len ≠ 0 → t.isSome = true) ∧
      (∀ task, t = some task → 0 < d.updateCh ∧ task ∈ d.heap.items ∧
        ∀ q, q ∈ d.heap.items → (d1.heap.mem task).priority ≤ (d.heap.mem q).priority) := by
  have hwf := WF.of_reachable h
  obtain ⟨d1, t, hrun⟩ :=
    PopTaskLoop_closed_returns (d.updateCh + 1) 0 d pick hwf hcl (Nat.lt_succ_self _)
  have hpt : PopTask d pick = some (.returned d1 t) := hrun
  refine ⟨d1, t, hpt, ?_, ?_, ?_⟩
  · intro hc
    have : PopTaskLoop (d.updateCh + 1) 0 d pick = some (.returned d none) :=
      PopTaskLoop_close hcl hc
    rw [this] at hrun
    cases hrun
    exact ⟨rfl, rfl⟩
  · intro hu hp hl
    have hwf1 : WF { d with updateCh := d.updateCh - 1 } := hwf.congr rfl rfl rfl
    obtain ⟨d2, t2, hpop, -⟩ := popTaskImpl_spec hwf1 hl
    have : PopTaskLoop (d.updateCh + 1) 0 d pick = some (.returned d2 (some t2)) :=
      PopTaskLoop_recv_task hu (fun _ => hp) hpop
    rw [this] at hrun
    cases hrun
    rfl
  · intro task ht
    subst ht
    obtain ⟨hu, -, -, h0, -, -, -, -, -, hmin⟩ := PopTask_task_min hwf hpt
    exact ⟨hu, List.getElem?_mem h0, hmin⟩

/-- Witness of C11 as amended: on the closed queue holding three tasks,
`PopTask` returns `nil` when its `select` takes the close case. -/
theorem PopTask_after_Close_witness :
    Reachable queueClosed513 ∧ queueClosed513.closeCh = true ∧
      (PopTask queueClosed513 (fun _ => true)).map (fun r => (r.isBlocked, r.task))
        = some (false, none) ∧
      ∃ d1 t, PopTask queueClosed513 (fun _ => true) = some (.returned d1 t) ∧
        ((queueClosed513.updateCh = 0 ∨ (fun _ : Nat => true) 0 = true) →
          t = none ∧ d1 = queueClosed513) ∧
        (0 < queueClosed513.updateCh → (fun _ : Nat => true) 0 = false →
          queueClosed513.heap.Len ≠ 0 → t.isSome = true) ∧
        (∀ task, t = some task → 0 < queueClosed513.updateCh ∧
          task ∈ queueClosed513.heap.items ∧
          ∀ q, q ∈ queueClosed513.heap.items →
            (d1.heap.mem task).priority ≤ (queueClosed513.heap.mem q).priority) :=
  ⟨Reachable.close reachable_queue513 rfl, by decide, by decide,
    PopTask_after_Close queueClosed513 (Reachable.close reachable_queue513 rfl) (by decide)
      (fun _ => true)⟩

/-- C12: on a closed queue whose heap is empty, with any number `k` of stale
signals in the buffer, `PopTask` returns `nil` within `k + 1` iterations of
its loop, however its `select` is resolved; heap and map are as before. -/
theorem PopTask_closed_empty_returns_nil (d : DialQueue) (hcl : d.closeCh = true)
    (hl : d.heap.Len = 0) (pick : Nat → Bool) :
    ∃ d1, PopTaskLoop (d.updateCh + 1) 0 d pick = some (.returned d1 none) ∧
      PopTask d pick = some (.returned d1 none) ∧
      d1.heap = d.heap ∧ d1.tasks = d.tasks ∧ d1.updateCh ≤ d.updateCh := by
  obtain ⟨d1, hrun, hh, ht, -, hu⟩ :=
    PopTaskLoop_closed_empty (d.updateCh + 1) 0 d pick hcl hl (Nat.lt_succ_self _)
  exact ⟨d1, hrun, hrun, hh, ht, hu⟩

/-- Witness of C12: a closed queue with an empty heap and two stale signals;
`PopTask` takes both signals and then returns `nil`. -/
theorem PopTask_closed_empty_returns_nil_witness :
    Reachable queueStaleClosed ∧ queueStaleClosed.closeCh = true ∧
      queueStaleClosed.heap.Len = 0 ∧ queueStaleClosed.updateCh = 2 ∧
      (PopTask queueStaleClosed (fun _ => false)).map
        (fun r => (r.isBlocked, r.task, r.queue.updateCh)) = some (false, none, 0) ∧
      ∃ d1, PopTaskLoop (queueStaleClosed.updateCh + 1) 0 queueStaleClosed (fun _ => false)
          = some (.returned d1 none) ∧
        PopTask queueStaleClosed (fun _ => false) = some (.returned d1 none) ∧
        d1.heap = queueStaleClosed.heap ∧ d1.tasks = queueStaleClosed.tasks ∧
        d1.updateCh ≤ queueStaleClosed.updateCh :=
  ⟨Reachable.close reachable_queueStale rfl, by decide, by decide, by decide, by decide,
    PopTask_closed_empty_returns_nil queueStaleClosed (by decide) (by decide) (fun _ => false)⟩

/-- C16: on a queue with an empty heap `popTaskImpl` returns `nil` and leaves
the queue as it is; and an iteration of the `PopTask` loop that takes a signal
while the heap is empty does not return: the loop goes round again on the
same queue with one signal less. -/
theorem stale_signal_tolerated (d : DialQueue) (hl : d.heap.Len = 0) :
    popTaskImpl d = some (d, none) ∧
    ∀ (f k : Nat) (pick : Nat → Bool), 0 < d.updateCh → (d.closeCh = true → pick k = false) →
      PopTaskLoop (f + 1) k d pick =
        PopTaskLoop f (k + 1) { d with updateCh := d.updateCh - 1 } pick :=
  ⟨popTaskImpl_empty hl, fun _ _ _ hu hp => PopTaskLoop_recv_stale hu hp hl⟩

/-- Witness of C16: an open queue with an empty heap and two stale signals;
`PopTask` takes both and is then left waiting. -/
theorem stale_signal_tolerated_witness :
    Reachable queueStale ∧ queueStale.heap.Len = 0 ∧ queueStale.updateCh = 2 ∧
      queueStale.closeCh = false ∧
      (PopTask queueStale (fun _ => false)).map
        (fun r => (r.isBlocked, r.task, r.queue.updateCh)) = some (true, none, 0) ∧
      (popTaskImpl queueStale = some (queueStale, none) ∧
      ∀ (f k : Nat) (pick : Nat → Bool), 0 < queueStale.updateCh →
        (queueStale.closeCh = true → pick k = false) →
        PopTaskLoop (f + 1) k queueStale pick =
          PopTaskLoop f (k + 1) { queueStale with updateCh := queueStale.updateCh - 1 } pick) :=
  ⟨reachable_queueStale, by decide, by decide, by decide, by decide,
    stale_signal_tolerated queueStale (by decide)⟩

/-- C17, counterexample: `Close` on the new queue succeeds, and `Close` on the
queue it leaves faults: closing a closed channel is a run-time panic. -/
theorem Close_twice_faults :
    (Close NewDialQueue).isSome = true ∧ queueClosedEmpty.closeCh = true ∧
      (Close queueClosedEmpty).isNone = true ∧
      ((Close NewDialQueue).bind Close).isNone = true := by
  decide

/-- C17, amended: `Close` is not guarded against a second call.  On a queue
that has not been closed it succeeds and leaves the queue closed with heap,
map and buffered signals unchanged; on a queue on which `Close` has already
been called it faults. -/
theorem Close_second_call_faults (d : DialQueue) :
    (d.closeCh = false → ∃ d1, Close d = some d1 ∧ d1.closeCh = true ∧ d1.heap = d.heap ∧
      d1.tasks = d.tasks ∧ d1.updateCh = d.updateCh ∧ Close d1 = none) ∧
    (d.closeCh = true → Close d = none) := by
  constructor
  · intro h
    refine ⟨{ d with closeCh := true }, ?_, rfl, rfl, rfl, rfl, ?_⟩
    · simp [Close, h]
    · simp [Close]
  · intro h
    simp [Close, h]

/-- Witness of C17 as amended, on the new queue and on the queue `Close` leaves. -/
theorem Close_second_call_faults_witness :
    NewDialQueue.closeCh = false ∧ queueClosedEmpty.closeCh = true ∧
      (∃ d1, Close NewDialQueue = some d1 ∧ d1.closeCh = true ∧
        d1.heap = NewDialQueue.heap ∧ d1.tasks = NewDialQueue.tasks ∧
        d1.updateCh = NewDialQueue.updateCh ∧ Close d1 = none) ∧
      Close queueClosedEmpty = none :=
  ⟨by decide, by decide, (Close_second_call_faults NewDialQueue).1 (by decide),
    (Close_second_call_faults queueClosedEmpty).2 (by decide)⟩

/-! ## Completed calls on a queue that has not been closed -/

/-- What a completed `AddTask` does on a queue that has not been closed: for a
new peer one more task and one more signal, for a pending peer neither. -/
theorem AddTask_returned_open {d d1 : DialQueue} (hwf : WF d) (hcl : d.closeCh = false)
    {a : AddrInfo} {p : Nat} {c : Bool} (h : AddTask d a p c = some (.returned d1)) :
    WF d1 ∧ d1.closeCh = false ∧
      ((d.tasks.get a.ID = none ∧ d1.heap.Len = d.heap.Len + 1 ∧
          d1.updateCh = d.updateCh + 1 ∧ d.updateCh < updateChBufferSize) ∨
        ((d.tasks.get a.ID).isSome = true ∧ d1.heap.Len = d.heap.Len ∧
          d1.updateCh = d.updateCh)) := by
  cases hget : d.tasks.get a.ID with
  | none =>
    obtain ⟨d2, himpl, hwf2, -, hperm, -, -, -, hu, hc, -⟩ := addTaskImpl_new hwf p hget
    have hlen : d2.heap.Len = d.heap.Len + 1 := by
      have := hperm.length_eq
      simpa [dialQueueImpl.Len] using this
    have hc2 : d2.closeCh = false := by rw [hc]; exact hcl
    simp only [AddTask, himpl, Option.bind_eq_bind, Option.some_bind, if_true, hc2,
      Bool.false_and, Bool.false_eq_true, if_false] at h
    by_cases hs : d2.updateCh < updateChBufferSize
    · simp only [hs, decide_True, if_true] at h
      cases h
      refine ⟨hwf2.congr rfl rfl rfl, rfl, Or.inl ⟨rfl, hlen, ?_, ?_⟩⟩
      · show d2.updateCh + 1 = d.updateCh + 1
        rw [hu]
      · rw [← hu]; exact hs
    · simp only [hs, decide_False, Bool.false_eq_true, if_false] at h
      cases h
  | some item =>
    by_cases hlt : p < (d.heap.mem item).priority
    · obtain ⟨d2, himpl, hwf2, -, hperm, -, -, -, hu, hc, -⟩ := addTaskImpl_upgrade hwf hget hlt
      obtain ⟨o, ho, -, -, -, -, hret⟩ := AddTask_of_impl c himpl
      rw [hret rfl, h] at ho
      cases ho
      refine ⟨hwf2, by rw [hc]; exact hcl, Or.inr ⟨rfl, ?_, hu⟩⟩
      have := hperm.length_eq
      simpa [dialQueueImpl.Len] using this
    · have himpl := addTaskImpl_keep (a := a) hget (Nat.le_of_not_lt hlt)
      obtain ⟨o, ho, -, -, -, -, hret⟩ := AddTask_of_impl c himpl
      rw [hret rfl, h] at ho
      cases ho
      exact ⟨hwf, hcl, Or.inr ⟨rfl, rfl, rfl⟩⟩

theorem Removed.len_succ {t t1 : dialQueueImpl} {p : Ptr} (h : Removed t t1 p) :
    t1.Len + 1 = t.Len := by
  have := h.perm.length_eq
  simpa [dialQueueImpl.Len] using this

/-- With every call run to completion on a queue that has not been closed,
there are at least as many buffered signals as pending tasks. -/
theorem Completed.signals {d : DialQueue} (h : Completed d) :
    WF d ∧ d.closeCh = false ∧ d.heap.Len ≤ d.updateCh ∧
      d.updateCh ≤ updateChBufferSize := by
  induction h with
  | init => exact ⟨WF.init, rfl, Nat.le_refl _, by decide⟩
  | @add d0 d1 a p c _ hadd ih =>
    obtain ⟨hwf, hcl, hle, hcap⟩ := ih
    obtain ⟨hwf1, hcl1, hcase⟩ := AddTask_returned_open hwf hcl hadd
    refine ⟨hwf1, hcl1, ?_, ?_⟩ <;> rcases hcase with ⟨-, h1, h2, h3⟩ | ⟨-, h1, h2⟩ <;> omega
  | @del d0 d1 id _ hdel ih =>
    obtain ⟨hwf, hcl, hle, hcap⟩ := ih
    cases hget : d0.tasks.get id with
    | none =>
      rw [DeleteTask_absent hget] at hdel
      cases hdel
      exact ⟨hwf, hcl, hle, hcap⟩
    | some x =>
      obtain ⟨d2, h2, hrem, hwf2, -, hu, hc, -⟩ := DeleteTask_spec hwf hget
      rw [hdel] at h2
      cases h2
      have := hrem.len_succ
      exact ⟨hwf2, by rw [hc]; exact hcl, by omega, by omega⟩
  | @pop d0 d1 t pick _ hpop ih =>
    obtain ⟨hwf, hcl, hle, hcap⟩ := ih
    cases t with
    | none =>
      have := PopTaskLoop_nil_closed _ _ _ _ _ hpop
      rw [hcl] at this
      cases this
    | some task =>
      obtain ⟨hu, hu1, hlen, -, -, hwf1, -, hc1, hl1, -⟩ := PopTask_task_min hwf hpop
      exact ⟨hwf1, by rw [hc1]; exact hcl, by omega, by omega⟩

/-- With a signal buffered for every pending task, `PopTask` on an open queue
with a pending task takes a signal and returns the task in the root slot. -/
theorem PopTask_returns_task {d : DialQueue} (hwf : WF d) (hcl : d.closeCh = false)
    (hle : d.heap.Len ≤ d.updateCh) (hlen : d.heap.Len ≠ 0) (pick : Nat → Bool) :
    ∃ d1 t, PopTask d pick = some (.returned d1 (some t)) ∧ d.heap.items[0]? = some t ∧
      Removed d.heap d1.heap t ∧ WF d1 ∧ d1.closeCh = false ∧
      d1.heap.Len ≤ d1.updateCh := by
  have hu : 0 < d.updateCh := by omega
  have hwf1 : WF { d with updateCh := d.updateCh - 1 } := hwf.congr rfl rfl rfl
  obtain ⟨d1, t, hpop, h0, hrem, hwf2, -, hu2, hc2, -, hl2⟩ := popTaskImpl_spec hwf1 hlen
  have hrun : PopTask d pick = some (.returned d1 (some t)) :=
    PopTaskLoop_recv_task hu (fun e => by rw [hcl] at e; cases e) hpop
  refine ⟨d1, t, hrun, h0, hrem, hwf2, by rw [hc2]; exact hcl, ?_⟩
  have e1 : d1.updateCh = d.updateCh - 1 := hu2
  have e2 : d1.heap.Len = d.heap.Len - 1 := hl2
  omega

/-- As many calls of `PopTask` as there are pending tasks return them all. -/
theorem popTaskN_spec : ∀ (n : Nat) (d : DialQueue) (pick : Nat → Bool), WF d →
    d.closeCh = false → d.heap.Len ≤ d.updateCh → d.heap.Len = n →
    ∃ d1 out, popTaskN n d pick = some (d1, out) ∧ out.Perm d.heap.items ∧
      d1.heap.Len = 0 := by
  intro n
  induction n with
  | zero =>
    intro d pick _ _ _ hl
    refine ⟨d, [], rfl, ?_, hl⟩
    rw [List.length_eq_zero.mp hl]
  | succ n ih =>
    intro d pick hwf hcl hle hl
    obtain ⟨d1, t, hrun, -, hrem, hwf1, hcl1, hle1⟩ :=
      PopTask_returns_task hwf hcl hle (by omega) pick
    have hl1 : d1.heap.Len = n := by
      have := hrem.len_succ
      omega
    obtain ⟨d2, out, hrest, hperm, hl2⟩ := ih d1 pick hwf1 hcl1 hle1 hl1
    refine ⟨d2, t :: out, ?_, (List.Perm.cons t hperm).trans hrem.perm, hl2⟩
    simp only [popTaskN, hrun, hrest, Option.map_some']

/-- C13: with the availability channel a counter bounded by
`updateChBufferSize` and every `AddTask`, `DeleteTask` and `PopTask` one atomic
step that runs to completion, a queue that has not been closed always has at
least as many buffered signals as pending tasks; so `PopTask` on a queue with a
pending task finds a signal and returns a pending task, and as many calls of
`PopTask` as there are pending tasks return them all and empty the heap. -/
theorem no_task_lost (d : DialQueue) (h : Completed d) :
    d.closeCh = false ∧ d.updateCh ≤ updateChBufferSize ∧ d.heap.Len ≤ d.updateCh ∧
    (d.heap.Len ≠ 0 → ∀ pick, ∃ d1 t, PopTask d pick = some (.returned d1 (some t)) ∧
      t ∈ d.heap.items) ∧
    (∀ pick, ∃ d1 out, popTaskN d.heap.Len d pick = some (d1, out) ∧
      out.Perm d.heap.items ∧ d1.heap.Len = 0) := by
  obtain ⟨hwf, hcl, hle, hcap⟩ := h.signals
  refine ⟨hcl, hcap, hle, ?_, ?_⟩
  · intro hlen pick
    obtain ⟨d1, t, hrun, h0, -⟩ := PopTask_returns_task hwf hcl hle hlen pick
    exact ⟨d1, t, hrun, List.getElem?_mem h0⟩
  · intro pick
    exact popTaskN_spec d.heap.Len d pick hwf hcl hle rfl

/-- Witness of C13: after `A` and `B` are added two signals are buffered for
the two pending tasks, and two calls of `PopTask` return both. -/
theorem no_task_lost_witness :
    Completed queueAB ∧ queueAB.heap.Len = 2 ∧ queueAB.updateCh = 2 ∧
      (popTaskN 2 queueAB (fun _ => false)).map Prod.snd = some [0, 1] ∧
      (queueAB.closeCh = false ∧ queueAB.updateCh ≤ updateChBufferSize ∧
      queueAB.heap.Len ≤ queueAB.updateCh ∧
      (queueAB.heap.Len ≠ 0 → ∀ pick, ∃ d1 t,
        PopTask queueAB pick = some (.returned d1 (some t)) ∧ t ∈ queueAB.heap.items) ∧
      (∀ pick, ∃ d1 out, popTaskN queueAB.heap.Len queueAB pick = some (d1, out) ∧
        out.Perm queueAB.heap.items ∧ d1.heap.Len = 0)) :=
  ⟨@Completed.add queueA queueAB ⟨2, []⟩ 2 false
      (@Completed.add NewDialQueue queueA ⟨1, []⟩ 1 false Completed.init rfl) rfl,
    by decide, by decide, by decide,
    no_task_lost queueAB (@Completed.add queueA queueAB ⟨2, []⟩ 2 false
      (@Completed.add NewDialQueue queueA ⟨1, []⟩ 1 false Completed.init rfl) rfl)⟩

/-! ## Draining with address hints -/

theorem Removed.entries_perm {t t1 : dialQueueImpl} {p : Ptr} (h : Removed t t1 p) :
    (((t.mem p).addrInfo, (t.mem p).priority) :: t1.entries).Perm t.entries := by
  have e : t1.entries = t1.items.map (fun q => ((t.mem q).addrInfo, (t.mem q).priority)) := by
    simp only [dialQueueImpl.entries]
    exact List.map_congr_left (fun q _ => by rw [h.prio q, h.addr q])
  rw [e]
  exact h.perm.map (fun q => ((t.mem q).addrInfo, (t.mem q).priority))

/-- Adding tasks for new, pairwise distinct peers stores every one of them with
its address hint and priority. -/
theorem addAll_entries : ∀ (l : List (AddrInfo × Nat × Bool)) (d : DialQueue), WF d →
    (l.map (fun x => x.1.ID)).Nodup → (∀ x, x ∈ l → d.tasks.get x.1.ID = none) →
    ∃ d1, addAll d l = some d1 ∧ WF d1 ∧
      d1.heap.entries.Perm (l.map (fun x => (x.1, x.2.1)) ++ d.heap.entries) := by
  intro l
  induction l with
  | nil =>
    intro d h _ _
    exact ⟨d, rfl, h, List.Perm.refl _⟩
  | cons x l ih =>
    intro d h hnd hnone
    obtain ⟨a, p, c⟩ := x
    rw [List.map_cons, List.nodup_cons] at hnd
    obtain ⟨d1, himpl, hwf1, htasks, hperm, haddr, hprio, hrest, -, -, hnext⟩ :=
      addTaskImpl_new h p (hnone (a, p, c) (List.mem_cons_self _ _))
    obtain ⟨o, hadd, hh, ht, hn, -, -⟩ := AddTask_of_impl c himpl
    have hwfo : WF o.queue := hwf1.congr hh ht hn
    have hnone1 : ∀ x, x ∈ l → o.queue.tasks.get x.1.ID = none := by
      intro x hx
      have hne : x.1.ID ≠ a.ID := by
        intro e
        exact hnd.1 (List.mem_map.mpr ⟨x, hx, e⟩)
      rw [ht, htasks, TaskMap.get_set_ne _ _ hne]
      exact hnone x (List.mem_cons_of_mem _ hx)
    obtain ⟨d2, hall, hwf2, hp2⟩ := ih o.queue hwfo hnd.2 hnone1
    have hfresh : ∀ q, q ∈ d.heap.items → q ≠ d.next :=
      fun q hq e => Nat.lt_irrefl _ (e ▸ h.fresh q hq)
    have hent : d1.heap.entries.Perm ((a, p) :: d.heap.entries) := by
      have e1 : (d.next :: d.heap.items).map
          (fun q => ((d1.heap.mem q).addrInfo, (d1.heap.mem q).priority))
          = (a, p) :: d.heap.entries := by
        simp only [List.map_cons, hprio, haddr, dialQueueImpl.entries]
        congr 1
        exact List.map_congr_left
          (fun q hq => by rw [(hrest q (hfresh q hq)).1, (hrest q (hfresh q hq)).2])
      rw [← e1]
      exact hperm.map _
    refine ⟨d2, ?_, hwf2, ?_⟩
    · simp only [addAll, hadd, Option.bind_eq_bind, Option.some_bind]
      exact hall
    · rw [hh] at hp2
      refine hp2.trans ?_
      simp only [List.map_cons, List.cons_append]
      exact (List.Perm.append_left _ hent).trans List.perm_middle

/-- Popping as many times as the heap has slots returns every task, in
non-decreasing order of priority. -/
theorem popTasks_spec : ∀ (n : Nat) (d : DialQueue), WF d → d.heap.Len = n →
    ∃ d1 out, popTasks n d = some (d1, out) ∧ (out.map Prod.snd).Sorted (· ≤ ·) ∧
      out.Perm d.heap.entries ∧ d1.heap.Len = 0 := by
  intro n
  induction n with
  | zero =>
    intro d h hl
    refine ⟨d, [], rfl, List.sorted_nil, ?_, hl⟩
    have : d.heap.items = [] := List.length_eq_zero.mp hl
    simp [dialQueueImpl.entries, this]
  | succ n ih =>
    intro d h hl
    obtain ⟨d1, p, hpop, h0, hrem, hwf1, -, -, -, -, hl1⟩ :=
      popTaskImpl_spec h (by omega)
    obtain ⟨d2, out, hrun, hsorted, hperm, hl2⟩ := ih d1 hwf1 (by omega)
    refine ⟨d2, ((d1.heap.mem p).addrInfo, (d1.heap.mem p).priority) :: out, ?_, ?_, ?_, hl2⟩
    · simp only [popTasks, hpop, hrun, Option.bind_eq_bind, Option.some_bind]
    · rw [List.map_cons]
      refine List.sorted_cons.mpr ⟨?_, hsorted⟩
      intro x hx
      obtain ⟨y, hy, e⟩ := List.mem_map.mp hx
      have hy1 : y ∈ d1.heap.entries := hperm.mem_iff.mp hy
      obtain ⟨q, hq, e2⟩ := List.mem_map.mp hy1
      have hq1 : q ∈ d.heap.items := hrem.perm.mem_iff.mp (List.mem_cons_of_mem _ hq)
      have := h.root_min h0 q hq1
      rw [← e, ← e2]
      show (d1.heap.mem p).priority ≤ (d1.heap.mem q).priority
      rw [hrem.prio p, hrem.prio q]
      exact this
    · rw [hrem.prio p, hrem.addr p]
      exact (List.Perm.cons _ hperm).trans hrem.entries_perm

/-- Two lists of tasks with the same members, both in strictly increasing
order of priority, are equal. -/
theorem eq_of_perm_of_prio_sorted {l1 l2 : List (AddrInfo × Nat)} (hperm : l1.Perm l2)
    (h1 : (l1.map Prod.snd).Sorted (· < ·)) (h2 : (l2.map Prod.snd).Sorted (· < ·)) :
    l1 = l2 := by
  have s1 : l1.Sorted (fun x y => x.2 < y.2) := List.pairwise_map.mp h1
  have s2 : l2.Sorted (fun x y => x.2 < y.2) := List.pairwise_map.mp h2
  haveI : IsAntisymm (AddrInfo × Nat) (fun x y => x.2 < y.2) :=
    ⟨fun x y hxy hyx => absurd hxy (Nat.lt_asymm hyx)⟩
  exact List.eq_of_perm_of_sorted hperm s1 s2

/-- C14: when the same tasks, for pairwise distinct peers and with pairwise
distinct priorities, are added by `AddTask` to the empty queue in two
different orders, draining the two queues by successive pops returns the same
sequence of tasks (address hint with peer identity, and priority). -/
theorem insertion_order_not_observable (l1 l2 : List (AddrInfo × Nat × Bool))
    (hperm : (l1.map (fun x => (x.1, x.2.1))).Perm (l2.map (fun x => (x.1, x.2.1))))
    (hpeers : (l1.map (fun x => x.1.ID)).Nodup)
    (hprios : (l1.map (fun x => x.2.1)).Nodup) :
    ∃ d1 d2 e1 e2 out, addAll NewDialQueue l1 = some d1 ∧ addAll NewDialQueue l2 = some d2 ∧
      popTasks l1.length d1 = some (e1, out) ∧ popTasks l2.length d2 = some (e2, out) ∧
      out.length = l1.length ∧ e1.heap.Len = 0 ∧ e2.heap.Len = 0 := by
  have hlen : l1.length = l2.length := by
    have := hperm.length_eq
    simpa using this
  have hpeers2 : (l2.map (fun x => x.1.ID)).Nodup := by
    have e : ∀ l : List (AddrInfo × Nat × Bool),
        l.map (fun x => x.1.ID) = (l.map (fun x => (x.1, x.2.1))).map (fun y => y.1.ID) := by
      intro l; rw [List.map_map]; rfl
    rw [e] at hpeers ⊢
    exact (hperm.map _).nodup_iff.mp hpeers
  have epr : ∀ l : List (AddrInfo × Nat × Bool),
      l.map (fun x => x.2.1) = (l.map (fun x => (x.1, x.2.1))).map Prod.snd := by
    intro l; rw [List.map_map]; rfl
  obtain ⟨d1, hall1, hwf1, hent1⟩ := addAll_entries l1 NewDialQueue WF.init hpeers (fun _ _ => rfl)
  obtain ⟨d2, hall2, hwf2, hent2⟩ := addAll_entries l2 NewDialQueue WF.init hpeers2 (fun _ _ => rfl)
  have hnil : NewDialQueue.heap.entries = [] := rfl
  rw [hnil, List.append_nil] at hent1 hent2
  have hl1 : d1.heap.Len = l1.length := by
    have := hent1.length_eq
    simpa [dialQueueImpl.entries, dialQueueImpl.Len] using this
  have hl2 : d2.heap.Len = l2.length := by
    have := hent2.length_eq
    simpa [dialQueueImpl.entries, dialQueueImpl.Len] using this
  obtain ⟨e1, out1, hrun1, hs1, hp1, hz1⟩ := popTasks_spec l1.length d1 hwf1 hl1
  obtain ⟨e2, out2, hrun2, hs2, hp2, hz2⟩ := popTasks_spec l2.length d2 hwf2 hl2
  have hq1 : out1.Perm (l1.map (fun x => (x.1, x.2.1))) := hp1.trans hent1
  have hq2 : out2.Perm (l1.map (fun x => (x.1, x.2.1))) := (hp2.trans hent2).trans hperm.symm
  have hn1 : (out1.map Prod.snd).Nodup := by
    rw [epr] at hprios
    exact (hq1.map Prod.snd).nodup_iff.mpr hprios
  have hn2 : (out2.map Prod.snd).Nodup := by
    rw [epr] at hprios
    exact (hq2.map Prod.snd).nodup_iff.mpr hprios
  have heq : out1 = out2 :=
    eq_of_perm_of_prio_sorted (hq1.trans hq2.symm) (hs1.lt_of_le hn1) (hs2.lt_of_le hn2)
  subst heq
  refine ⟨d1, d2, e1, e2, out1, hall1, hall2, hrun1, hrun2, ?_, hz1, hz2⟩
  have := hq1.length_eq
  simpa using this

/-- Witness of C14: the tasks with priorities 5, 1, 3 added in two orders are
drained as the same sequence. -/
theorem insertion_order_not_observable_witness :
    (tasks513.map (fun x => (x.1, x.2.1))).Perm (tasks351.map (fun x => (x.1, x.2.1))) ∧
      (tasks513.map (fun x => x.1.ID)).Nodup ∧ (tasks513.map (fun x => x.2.1)).Nodup ∧
      ((addAll NewDialQueue tasks513).bind (popTasks 3)).map Prod.snd
        = some [(⟨2, []⟩, 1), (⟨3, []⟩, 3), (⟨1, []⟩, 5)] ∧
      ((addAll NewDialQueue tasks351).bind (popTasks 3)).map Prod.snd
        = some [(⟨2, []⟩, 1), (⟨3, []⟩, 3), (⟨1, []⟩, 5)] ∧
      ∃ d1 d2 e1 e2 out, addAll NewDialQueue tasks513 = some d1 ∧
        addAll NewDialQueue tasks351 = some d2 ∧
        popTasks tasks513.length d1 = some (e1, out) ∧
        popTasks tasks351.length d2 = some (e2, out) ∧
        out.length = tasks513.length ∧ e1.heap.Len = 0 ∧ e2.heap.Len = 0 :=
  ⟨by decide, by decide, by decide, by decide, by decide,
    insertion_order_not_observable tasks513 tasks351 (by decide) (by decide) (by decide)⟩

theorem reachable_queueP10 : Reachable queueP10 :=
  reachable_addAll tasksP10 _ _ Reachable.init rfl

/-- C15: on a reachable queue `addTaskImpl` returns `true` exactly when the peer
had no pending task; so on a queue that is not closed and whose signal buffer
is not full `AddTask` returns with one more buffered signal when it inserts a
new task, and with the same number of buffered signals for a peer that was
pending, whether or not the call lowers that peer's priority. -/
theorem signal_only_for_new_task (d : DialQueue) (h : Reachable d) (a : AddrInfo) (p : Nat)
    (c : Bool) :
    ∃ d1 b, addTaskImpl d a p = some (d1, b) ∧ (b = true ↔ d.tasks.get a.ID = none) ∧
      (d.closeCh = false → d.updateCh < updateChBufferSize →
        ∃ d2, AddTask d a p c = some (.returned d2) ∧ d2.heap = d1.heap ∧
          d2.tasks = d1.tasks ∧
          (d.tasks.get a.ID = none → d2.updateCh = d.updateCh + 1) ∧
          (d.tasks.get a.ID ≠ none → d2.updateCh = d.updateCh)) := by
  have hwf := WF.of_reachable h
  obtain ⟨d1, himpl, -, -, -, hu, hc⟩ := addTaskImpl_tasks hwf a p
  refine ⟨d1, _, himpl, Option.isNone_iff_eq_none, ?_⟩
  intro hcl hs
  have hc1 : d1.closeCh = false := by rw [hc]; exact hcl
  have hs1 : d1.updateCh < updateChBufferSize := by rw [hu]; exact hs
  cases hget : d.tasks.get a.ID with
  | none =>
    rw [hget] at himpl
    refine ⟨{ d1 with updateCh := d1.updateCh + 1 }, ?_, rfl, rfl, ?_, ?_⟩
    · simp [AddTask, himpl, hc1, hs1]
    · intro _
      show d1.updateCh + 1 = d.updateCh + 1
      rw [hu]
    · intro hne; exact absurd rfl hne
  | some item =>
    rw [hget] at himpl
    refine ⟨d1, ?_, rfl, rfl, ?_, ?_⟩
    · simp [AddTask, himpl]
    · intro e; cases e
    · intro _; exact hu

/-- Witness of C15: with peer 7 pending and one signal buffered, an `AddTask`
that lowers the priority of peer 7 leaves one signal, and an `AddTask` of the
new peer 8 makes it two. -/
theorem signal_only_for_new_task_witness :
    Reachable queueP10 ∧ queueP10.updateCh = 1 ∧
      (AddTask queueP10 ⟨7, [2]⟩ 2 false).map (fun o => (o.isBlocked, o.queue.updateCh))
        = some (false, 1) ∧
      (AddTask queueP10 ⟨8, []⟩ 3 false).map (fun o => (o.isBlocked, o.queue.updateCh))
        = some (false, 2) ∧
      ∃ d1 b, addTaskImpl queueP10 ⟨8, []⟩ 3 = some (d1, b) ∧
        (b = true ↔ queueP10.tasks.get (AddrInfo.mk 8 []).ID = none) ∧
        (queueP10.closeCh = false → queueP10.updateCh < updateChBufferSize →
          ∃ d2, AddTask queueP10 ⟨8, []⟩ 3 false = some (.returned d2) ∧ d2.heap = d1.heap ∧
            d2.tasks = d1.tasks ∧
            (queueP10.tasks.get (AddrInfo.mk 8 []).ID = none →
              d2.updateCh = queueP10.updateCh + 1) ∧
            (queueP10.tasks.get (AddrInfo.mk 8 []).ID ≠ none →
              d2.updateCh = queueP10.updateCh)) :=
  ⟨reachable_queueP10, by decide, by decide, by decide,
    signal_only_for_new_task queueP10 reachable_queueP10 ⟨8, []⟩ 3 false⟩

/-- C18: in every reachable state the task in heap slot `i` has its `index`
field equal to `i`; so for every peer in the map the `index` of its task is a
slot of the heap and that slot holds this very task, which is the slot
`heap.Fix` in `addTaskImpl` and `heap.Remove` in `DeleteTask` are given; and
neither `addTaskImpl` nor `DeleteTask` faults. -/
theorem position_tracking_accurate (d : DialQueue) (h : Reachable d) :
    (∀ i p, d.heap.items[i]? = some p → (d.heap.mem p).index = i) ∧
    (∀ id item, d.tasks.get id = some item →
      (d.heap.mem item).index < d.heap.Len ∧
      d.heap.items[(d.heap.mem item).index]? = some item ∧
      (d.heap.mem item).addrInfo.ID = id) ∧
    (∀ id, (DeleteTask d id).isSome = true) ∧
    (∀ a p, (addTaskImpl d a p).isSome = true) := by
  have hwf := WF.of_reachable h
  refine ⟨hwf.idx, ?_, ?_, ?_⟩
  · intro id item hget
    obtain ⟨hmem, hid⟩ := hwf.mapHeap id item hget
    have hslot := hwf.idx.slot hmem
    refine ⟨?_, hslot, hid⟩
    by_contra hc
    rw [List.getElem?_eq_none (by unfold dialQueueImpl.Len at hc; omega)] at hslot
    cases hslot
  · intro id
    cases hget : d.tasks.get id with
    | none => rw [DeleteTask_absent hget]; rfl
    | some item =>
      obtain ⟨d1, hdel, -⟩ := DeleteTask_spec hwf hget
      rw [hdel]; rfl
  · intro a p
    obtain ⟨d1, himpl, -⟩ := addTaskImpl_total hwf a p
    rw [himpl]; rfl

/-- Witness of C18 on the queue holding the priorities 5, 1, 3: the task of
peer 1 was moved to slot 1 when peer 2 was added, and its `index` says so. -/
theorem position_tracking_accurate_witness :
    Reachable queue513 ∧ queue513.heap.items = [1, 0, 2] ∧
      queue513.tasks.get 1 = some 0 ∧ (queue513.heap.mem 0).index = 1 ∧
      ((∀ i p, queue513.heap.items[i]? = some p → (queue513.heap.mem p).index = i) ∧
      (∀ id item, queue513.tasks.get id = some item →
        (queue513.heap.mem item).index < queue513.heap.Len ∧
        queue513.heap.items[(queue513.heap.mem item).index]? = some item ∧
        (queue513.heap.mem item).addrInfo.ID = id) ∧
      (∀ id, (DeleteTask queue513 id).isSome = true) ∧
      (∀ a p, (addTaskImpl queue513 a p).isSome = true)) :=
  ⟨reachable_queue513, by decide, by decide, by decide,
    position_tracking_accurate queue513 reachable_queue513⟩

/-- C19: in every reachable state the task stored in the map under a peer
identity carries that identity in its address hint, and it still does after an
`AddTask` of that peer, which may overwrite the address hint; so the delete in
`popTaskImpl`, keyed by the identity of the popped task, removes the map entry
that holds the popped task and no other entry. -/
theorem map_keys_match_identities (d : DialQueue) (h : Reachable d) :
    (∀ id item, d.tasks.get id = some item → (d.heap.mem item).addrInfo.ID = id) ∧
    (∀ (a : AddrInfo) (p : Nat) (c : Bool) item, d.tasks.get a.ID = some item →
      ∃ d1, AddTask d a p c = some (.returned d1) ∧ d1.tasks.get a.ID = some item ∧
        (d1.heap.mem item).addrInfo.ID = a.ID) ∧
    (d.heap.Len ≠ 0 → ∃ d1 t, popTaskImpl d = some (d1, some t) ∧
      d.tasks.get (d.heap.mem t).addrInfo.ID = some t ∧
      d1.tasks = d.tasks.delete (d.heap.mem t).addrInfo.ID ∧
      d1.tasks.get (d.heap.mem t).addrInfo.ID = none ∧
      ∀ id, id ≠ (d.heap.mem t).addrInfo.ID → d1.tasks.get id = d.tasks.get id) := by
  have hwf := WF.of_reachable h
  refine ⟨fun id item hget => (hwf.mapHeap id item hget).2, ?_, ?_⟩
  · intro a p c item hget
    by_cases hlt : p < (d.heap.mem item).priority
    · obtain ⟨d1, himpl, hwf1, ht, -⟩ := addTaskImpl_upgrade hwf hget hlt
      obtain ⟨o, ho, -, -, -, -, hret⟩ := AddTask_of_impl c himpl
      rw [hret rfl] at ho
      have hg1 : d1.tasks.get a.ID = some item := by rw [ht]; exact hget
      exact ⟨d1, ho, hg1, (hwf1.mapHeap _ _ hg1).2⟩
    · have himpl := addTaskImpl_keep (a := a) hget (Nat.le_of_not_lt hlt)
      obtain ⟨o, ho, -, -, -, -, hret⟩ := AddTask_of_impl c himpl
      rw [hret rfl] at ho
      exact ⟨d, ho, hget, (hwf.mapHeap _ _ hget).2⟩
  · intro hlen
    obtain ⟨d1, t, hpop, h0, -, -, ht, -⟩ := popTaskImpl_spec hwf hlen
    refine ⟨d1, t, hpop, hwf.heapMap t (List.getElem?_mem h0), ht, ?_, ?_⟩
    · rw [ht]; exact TaskMap.get_delete_self _ _
    · intro id hne
      rw [ht]; exact TaskMap.get_delete_ne _ hne

/-- Witness of C19 on the queue with peer 7 pending: after an `AddTask` that
overwrites the address hint the entry of peer 7 still carries the identity 7. -/
theorem map_keys_match_identities_witness :
    Reachable queueP10 ∧
      (AddTask queueP10 ⟨7, [2]⟩ 2 false).map (fun o => storedAddrInfo o.queue 7)
        = some (some ⟨7, [2]⟩) ∧
      ((∀ id item, queueP10.tasks.get id = some item →
        (queueP10.heap.mem item).addrInfo.ID = id) ∧
      (∀ (a : AddrInfo) (p : Nat) (c : Bool) item, queueP10.tasks.get a.ID = some item →
        ∃ d1, AddTask queueP10 a p c = some (.returned d1) ∧
          d1.tasks.get a.ID = some item ∧ (d1.heap.mem item).addrInfo.ID = a.ID) ∧
      (queueP10.heap.Len ≠ 0 → ∃ d1 t, popTaskImpl queueP10 = some (d1, some t) ∧
        queueP10.tasks.get (queueP10.heap.mem t).addrInfo.ID = some t ∧
        d1.tasks = queueP10.tasks.delete (queueP10.heap.mem t).addrInfo.ID ∧
        d1.tasks.get (queueP10.heap.mem t).addrInfo.ID = none ∧
        ∀ id, id ≠ (queueP10.heap.mem t).addrInfo.ID →
          d1.tasks.get id = queueP10.tasks.get id)) :=
  ⟨reachable_queueP10, by decide, map_keys_match_identities queueP10 reachable_queueP10⟩
